import Mathlib

/-!
Verification of the dot-notation JSON accessor library (`index.js`).

The embedding models JavaScript values manipulated by the library as the
inductive type `Val`: JSON primitives (`null`, `undefined`, booleans,
numbers, strings), arrays, and objects as insertion-ordered association
lists of string keys (JavaScript objects cannot hold duplicate keys, and
the library only manipulates JSON-representable data, so prototype-chain
properties are not modelled).  Numbers are modelled as integers; no claim
under study depends on floating-point behaviour.  Functions that can
`throw` are modelled in `Except String`, carrying the thrown message.
-/

inductive Val where
  | vnull
  | vundefined
  | vbool (b : Bool)
  | vnum (n : Int)
  | vstr (s : String)
  | varr (elems : List Val)
  | vobj (props : List (String × Val))

/-- Mutual structural induction over `Val`, its property lists and element
lists, derived by strong induction on `sizeOf`. -/
theorem valMutInd (P : Val → Prop) (Q : List (String × Val) → Prop) (R : List Val → Prop)
    (hnull : P .vnull) (hundef : P .vundefined) (hbool : ∀ b, P (.vbool b))
    (hnum : ∀ n, P (.vnum n)) (hstr : ∀ s, P (.vstr s))
    (hobj : ∀ ps, Q ps → P (.vobj ps)) (harr : ∀ es, R es → P (.varr es))
    (hqnil : Q []) (hqcons : ∀ k v rest, P v → Q rest → Q ((k, v) :: rest))
    (hrnil : R []) (hrcons : ∀ v rest, P v → R rest → R (v :: rest)) :
    (∀ v, P v) ∧ (∀ ps, Q ps) ∧ (∀ es, R es) := by
  have key : ∀ n : Nat, (∀ v : Val, sizeOf v ≤ n → P v) ∧
      (∀ ps : List (String × Val), sizeOf ps ≤ n → Q ps) ∧
      (∀ es : List Val, sizeOf es ≤ n → R es) := by
    intro n
    induction n using Nat.strong_induction_on with
    | _ n ih =>
      refine ⟨?_, ?_, ?_⟩
      · intro v hv
        match v with
        | .vnull => exact hnull
        | .vundefined => exact hundef
        | .vbool b => exact hbool b
        | .vnum m => exact hnum m
        | .vstr s => exact hstr s
        | .vobj ps =>
          have hlt : sizeOf ps < n := by simp at hv; omega
          exact hobj ps ((ih _ hlt).2.1 ps le_rfl)
        | .varr es =>
          have hlt : sizeOf es < n := by simp at hv; omega
          exact harr es ((ih _ hlt).2.2 es le_rfl)
      · intro ps hp
        match ps with
        | [] => exact hqnil
        | (k, v) :: rest =>
          have hv : sizeOf v < n := by simp at hp; omega
          have hr : sizeOf rest < n := by simp at hp; omega
          exact hqcons k v rest ((ih _ hv).1 v le_rfl) ((ih _ hr).2.1 rest le_rfl)
      · intro es he
        match es with
        | [] => exact hrnil
        | v :: rest =>
          have hv : sizeOf v < n := by simp at he; omega
          have hr : sizeOf rest < n := by simp at he; omega
          exact hrcons v rest ((ih _ hv).1 v le_rfl) ((ih _ hr).2.2 rest le_rfl)
  exact ⟨fun v => (key (sizeOf v)).1 v le_rfl,
         fun ps => (key (sizeOf ps)).2.1 ps le_rfl,
         fun es => (key (sizeOf es)).2.2 es le_rfl⟩

mutual

def beqVal : Val → Val → Bool
  | .vnull, .vnull => true
  | .vundefined, .vundefined => true
  | .vbool a, .vbool b => a == b
  | .vnum a, .vnum b => a == b
  | .vstr a, .vstr b => a == b
  | .varr a, .varr b => beqElems a b
  | .vobj a, .vobj b => beqProps a b
  | _, _ => false

def beqElems : List Val → List Val → Bool
  | [], [] => true
  | a :: as, b :: bs => beqVal a b && beqElems as bs
  | _, _ => false

def beqProps : List (String × Val) → List (String × Val) → Bool
  | [], [] => true
  | (k, v) :: as, (l, w) :: bs => k == l && beqVal v w && beqProps as bs
  | _, _ => false

end

theorem beqVal_sound : (∀ v w : Val, beqVal v w = true ↔ v = w) ∧
    (∀ ps qs : List (String × Val), beqProps ps qs = true ↔ ps = qs) ∧
    (∀ es fs : List Val, beqElems es fs = true ↔ es = fs) := by
  refine valMutInd (fun v => ∀ w, beqVal v w = true ↔ v = w)
      (fun ps => ∀ qs, beqProps ps qs = true ↔ ps = qs)
      (fun es => ∀ fs, beqElems es fs = true ↔ es = fs)
      ?_ ?_ ?_ ?_ ?_ ?_ ?_ ?_ ?_ ?_ ?_
  · intro w; cases w <;> simp [beqVal]
  · intro w; cases w <;> simp [beqVal]
  · intro b w; cases w <;> simp [beqVal]
  · intro n w; cases w <;> simp [beqVal]
  · intro s w; cases w <;> simp [beqVal]
  · intro ps hq w
    cases w <;> simp [beqVal]
    exact hq _
  · intro es hr w
    cases w <;> simp [beqVal]
    exact hr _
  · intro qs; cases qs <;> simp [beqProps]
  · intro k v rest hv hrest qs
    match qs with
    | [] => simp [beqProps]
    | (l, w) :: ws => simp [beqProps, hv w, hrest ws, and_assoc]
  · intro fs; cases fs <;> simp [beqElems]
  · intro v rest hv hrest fs
    match fs with
    | [] => simp [beqElems]
    | w :: ws => simp [beqElems, hv w, hrest ws]

instance : DecidableEq Val := fun v w =>
  decidable_of_iff (beqVal v w = true) (beqVal_sound.1 v w)

instance : Inhabited Val := ⟨Val.vundefined⟩

/-! ## JavaScript value semantics used by the library -/

/-- JavaScript `typeof` on the modelled values (`typeof null` is `"object"`,
and arrays are `"object"` too). -/
def jsTypeof : Val → String
  | .vnull => "object"
  | .vundefined => "undefined"
  | .vbool _ => "boolean"
  | .vnum _ => "number"
  | .vstr _ => "string"
  | .varr _ => "object"
  | .vobj _ => "object"

/-- JavaScript truthiness of the modelled values. -/
def truthy : Val → Bool
  | .vnull => false
  | .vundefined => false
  | .vbool b => b
  | .vnum n => n != 0
  | .vstr s => s != ""
  | .varr _ => true
  | .vobj _ => true

/-- Canonical array-index keys: `toIdx k = some i` when `k` is the decimal
numeral of `i` (the keys a JavaScript array's own elements answer to). -/
def toIdx (k : String) : Option Nat :=
  match k.toNat? with
  | some n => if toString n = k then some n else none
  | none => none

def objGetList (props : List (String × Val)) (k : String) : Val :=
  match props.find? (fun p => p.1 == k) with
  | some p => p.2
  | none => .vundefined

def objSetList (props : List (String × Val)) (k : String) (v : Val) : List (String × Val) :=
  if props.any (fun p => p.1 == k) then
    props.map fun p => if p.1 == k then (k, v) else p
  else
    props ++ [(k, v)]

/-- Property read `v[k]` (returns `undefined` when absent). -/
def vget : Val → String → Val
  | .vobj ps, k => objGetList ps k
  | .varr es, k => match toIdx k with | some i => es.getD i .vundefined | none => .vundefined
  | _, _ => .vundefined

/-- Membership `k in v` for object-like `v` (own data properties only: the
library manipulates JSON data, so inherited properties such as `length` or
`toString` never carry the values under study and are not modelled). -/
def vhas : Val → String → Bool
  | .vobj ps, k => ps.any fun p => p.1 == k
  | .varr es, k => match toIdx k with | some i => decide (i < es.length) | none => false
  | _, _ => false

/-- Property write `v[k] = x`.  On objects: update in place if `k` is
present, else append (JavaScript insertion order).  On arrays only
canonical index keys are modelled; a non-index key would attach a
non-JSON expando property that `JSON.stringify` ignores and no modelled
tree produced by the library's own writes ever carries. -/
def vset : Val → String → Val → Val
  | .vobj ps, k, v => .vobj (objSetList ps k v)
  | .varr es, k, v =>
      (match toIdx k with
       | some i => .varr (if i < es.length then es.set i v
                          else es ++ List.replicate (i - es.length) .vundefined ++ [v])
       | none => .varr es)
  | x, _, _ => x

/-- Own enumerable entries in iteration order, as `for (const key in obj)`
visits them (array elements under their index strings). -/
def ownEntries : Val → List (String × Val)
  | .vobj ps => ps
  | .varr es => es.enum.map fun p => (toString p.1, p.2)
  | _ => []

/-! ## The escaped-path tokenizer and key escaper

`key.replace(/\./g, '\\.')`, `key.replace(/\\\./g, '.')` and
`path.split(/(?<!\\)\./)` transcribed on character lists. -/

/-- `key.replace(/\./g, '\\.')`: escape every dot. -/
def escKeyL : List Char → List Char
  | [] => []
  | c :: rest => if c = '.' then '\\' :: '.' :: escKeyL rest else c :: escKeyL rest

/-- `s.replace(/\\\./g, '.')`: left-to-right, non-overlapping replacement
of backslash-dot by dot. -/
def unescL : List Char → List Char
  | [] => []
  | [c] => [c]
  | c :: d :: rest =>
      if c = '\\' ∧ d = '.' then '.' :: unescL rest
      else c :: unescL (d :: rest)

/-- Prepend a character to the first piece of a split result. -/
def consHead (c : Char) : List (List Char) → List (List Char)
  | [] => [[c]]
  | s :: ss => (c :: s) :: ss

/-- `path.split(/(?<!\\)\./)`: split at every dot whose immediately
preceding character in the string is not a backslash.  `prev` carries that
preceding character. -/
def splitRawL : Option Char → List Char → List (List Char)
  | _, [] => [[]]
  | prev, c :: rest =>
      if c = '.' ∧ prev ≠ some '\\' then
        [] :: splitRawL (some c) rest
      else
        consHead c (splitRawL (some c) rest)

/-- `s.split(".")`: split at every dot. -/
def splitDotL : List Char → List (List Char)
  | [] => [[]]
  | c :: rest =>
      if c = '.' then
        [] :: splitDotL rest
      else
        consHead c (splitDotL rest)

/-- The key escaper `escapeKey` of `flattenJsonWithEscaping` (also inlined
in `deepSearch`). -/
def escapeKey (key : String) : String := ⟨escKeyL key.data⟩

/-- The path tokenizer: `path.split(/(?<!\\)\./).map(key => key.replace(/\\\./g, '.'))`,
shared by the traversal functions and exposed by the store as `getKeys`. -/
def getKeys (path : String) : List String :=
  (splitRawL none path.data).map fun l => ⟨unescL l⟩

/-- `keyPrefix ? keyPrefix + "." + escapedKey : escapedKey`. -/
def joinKey (pfx k : String) : String := if pfx = "" then k else pfx ++ "." ++ k

/-! ## unflattenJson -/

/-- One `keys.forEach` pass of `unflattenJson` (lines 21–34): walk `keys`
into `result`, creating a fresh `{}` at any hop whose current value is
falsy or not `typeof "object"`, and assign the value at the final key.
In-place mutation is modelled by returning the updated accumulator. -/
def unfAssign : Val → List String → Val → Val
  | result, [k], value => vset result k value
  | result, k :: rest, value =>
      let child := vget result k
      let child' := if truthy child ∧ jsTypeof child = "object" then child else .vobj []
      vset result k (unfAssign child' rest value)
  | result, [], _ => result

/-- `unflattenJson(obj)`. -/
def unflattenJson (obj : Val) : Except String Val :=
  if jsTypeof obj = "object" ∧ obj ≠ .vnull then
    .ok ((ownEntries obj).foldl (fun result p => unfAssign result (getKeys p.1) p.2) (.vobj []))
  else
    .error "Input must be a non-null object."

/-! ## flattenJsonWithEscaping -/

mutual

/-- Branch on `current[key]` inside `recurse`: recurse when
`typeof current[key] === 'object' && current[key] !== null`, otherwise
record the value at the accumulated key (`result[newKey] = current[key]`). -/
def frecVal (res : List (String × Val)) (newKey : String) : Val → List (String × Val)
  | .vobj ps => frecProps res newKey ps
  | .varr es => frecElems res newKey 0 es
  | v => objSetList res newKey v

/-- `recurse(current, keyPrefix)` over an object's entries. -/
def frecProps (res : List (String × Val)) (keyPfx : String) : List (String × Val) → List (String × Val)
  | [] => res
  | (key, v) :: rest =>
      frecProps (frecVal res (joinKey keyPfx (escapeKey key)) v) keyPfx rest

/-- `recurse(current, keyPrefix)` over an array's entries (`for (const key
in current)` enumerates the index strings `"0"`, `"1"`, …). -/
def frecElems (res : List (String × Val)) (keyPfx : String) (i : Nat) : List Val → List (String × Val)
  | [] => res
  | v :: rest =>
      frecElems (frecVal res (joinKey keyPfx (escapeKey (toString i))) v) keyPfx (i + 1) rest

end

/-- `flattenJsonWithEscaping(obj, prefix)`; the flat result object is the
returned association list. -/
def flattenJsonWithEscaping (obj : Val) (pfx : String) : Except String (List (String × Val)) :=
  if jsTypeof obj = "object" ∧ obj ≠ .vnull then
    .ok (match obj with
         | .vobj ps => frecProps [] pfx ps
         | .varr es => frecElems [] pfx 0 es
         | _ => [])
  else
    .error "Input must be a non-null object."

/-! ## Read / Search / Write traversals -/

/-- The `for (const key of keys)` loop shared by
`getNestedValueWithEscaping` (lines 348–357): descend while the current
value is truthy, `typeof "object"` and owns the key, else return
`undefined`. -/
def getLoop : Val → List String → Val
  | current, [] => current
  | current, key :: rest =>
      if truthy current ∧ jsTypeof current = "object" ∧ vhas current key then
        getLoop (vget current key) rest
      else
        .vundefined

/-- `getNestedValueWithEscaping(obj, path)` (the second, effective
definition, lines 337–358; the earlier `reduce`-based definition at line 89
is shadowed by it).  The `path` argument is a raw JavaScript value so that
the non-string guard is observable. -/
def getNestedValueWithEscaping (obj path : Val) : Except String Val :=
  if ¬ truthy obj ∨ jsTypeof obj ≠ "object" then
    .error "First argument must be a non-null object."
  else
    match path with
    | .vstr s => .ok (getLoop obj (getKeys s))
    | _ => .error "Path must be a string."

/-- The `for (const key of keys)` loop of `searchNestedValueWithEscaping`
(lines 211–218). -/
def searchLoop : Val → List String → Val
  | current, [] => current
  | current, key :: rest =>
      if truthy current ∧ jsTypeof current = "object" ∧ vhas current key then
        searchLoop (vget current key) rest
      else
        .vundefined

/-- `searchNestedValueWithEscaping(obj, path)` (lines 199–220). -/
def searchNestedValueWithEscaping (obj path : Val) : Except String Val :=
  if ¬ truthy obj ∨ jsTypeof obj ≠ "object" then
    .error "First argument must be a non-null object."
  else
    match path with
    | .vstr s => .ok (searchLoop obj (getKeys s))
    | _ => .error "Path must be a string."

/-- One `keys.forEach` pass of `setNestedValueWithEscaping` (lines
141–152): create `{}` at any intermediate hop whose current value is falsy
or not `typeof "object"`, assign at the final key.  In-place mutation is
modelled by returning the updated tree. -/
def setAssign : Val → List String → Val → Val
  | current, [k], value => vset current k value
  | current, k :: rest, value =>
      let child := vget current k
      let child' := if truthy child ∧ jsTypeof child = "object" then child else .vobj []
      vset current k (setAssign child' rest value)
  | current, [], _ => current

/-- `setNestedValueWithEscaping(obj, path, value)` (lines 129–153).  The
two argument checks precede the mutation loop, so an error is raised
before any mutation: the embedding returns the updated tree only on
success. -/
def setNestedValueWithEscaping (obj path value : Val) : Except String Val :=
  if jsTypeof obj ≠ "object" ∨ obj = .vnull then
    .error "First argument must be a non-null object."
  else
    match path with
    | .vstr s => .ok (setAssign obj (getKeys s) value)
    | _ => .error "Path must be a string."

/-! ## searchJson (the store's `has`) -/

/-- The search criteria object `{path, like, keywords, regex}`.  A regular
expression is modelled by its `test` function on the generated path
string. -/
structure Criteria where
  path : Option String
  like : Option String
  keywords : Option (List String)
  regex : Option (String → Bool)

/-- Truthiness of the `path` criterion (`if (path)`). -/
def pathActive (c : Criteria) : Bool :=
  match c.path with
  | some p => p != ""
  | none => false

/-- Truthiness of `like` (an empty string is falsy). -/
def likeActive (c : Criteria) : Bool :=
  match c.like with
  | some l => l != ""
  | none => false

/-- Truthiness of `keywords` (any array, even empty, is truthy). -/
def kwActive (c : Criteria) : Bool := c.keywords.isSome

/-- Truthiness of `regex` (any RegExp object is truthy). -/
def reActive (c : Criteria) : Bool := c.regex.isSome

/-- `escapeDots` local to `searchJson`: `key.replace(/\\\./g, ".")`. -/
def escapeDots (key : String) : String := ⟨unescL key.data⟩

/-- `normalizedPath.split(".")`. -/
def splitDot (s : String) : List String := (splitDotL s.data).map fun l => ⟨l⟩

/-- The descent loop of `searchJson.searchPath` (lines 420–426):
`if (current && key in current)`.  When `current` is truthy the `in`
operator is evaluated, and `key in current` on a primitive throws a
`TypeError`; a falsy `current` or a missing key returns `null`. -/
def searchPathGo : Val → List String → Except String Val
  | current, [] => .ok current
  | current, key :: rest =>
      if truthy current then
        if jsTypeof current = "object" then
          if vhas current key then searchPathGo (vget current key) rest
          else .ok .vnull
        else .error "TypeError: cannot use in operator on a primitive"
      else .ok .vnull

/-- `searchPath(obj, currentPath, targetPath)` (lines 415–428):
unescape the whole target path, then split on every dot. -/
def searchPath (obj : Val) (targetPath : String) : Except String Val :=
  searchPathGo obj (splitDot (escapeDots targetPath))

/-- `like && fullPath.includes(like)`. -/
def subIncludes (sub : List Char) : List Char → Bool
  | [] => sub.isEmpty
  | l@(_ :: t) => sub.isPrefixOf l || subIncludes sub t

/-- JavaScript `s.includes(sub)`. -/
def strIncludes (s sub : String) : Bool := subIncludes sub.data s.data

def likeHit (c : Criteria) (fullPath : String) : Bool :=
  match c.like with
  | some l => l != "" && strIncludes fullPath l
  | none => false

/-- `keywords && keywords.some(kw => fullPath.includes(kw) ||
(typeof obj[key] === "string" && obj[key].includes(kw)))`. -/
def kwHit (c : Criteria) (fullPath : String) (v : Val) : Bool :=
  match c.keywords with
  | some kws => kws.any fun kw =>
      strIncludes fullPath kw ||
        (match v with | .vstr s => strIncludes s kw | _ => false)
  | none => false

def reHit (c : Criteria) (fullPath : String) : Bool :=
  match c.regex with
  | some tf => tf fullPath
  | none => false

mutual

/-- `deepSearch(obj, currentPath)` over an object's entries (lines
430–455): per visited key, build the escaped full path, push one match per
satisfied criterion (`like`, then `keywords`, then `regex`), then recurse
into object-typed non-null children. -/
def dsProps (c : Criteria) (res : List (String × Val)) (currentPath : String) :
    List (String × Val) → List (String × Val)
  | [] => res
  | (key, v) :: rest =>
      let fullPath := joinKey currentPath (escapeKey key)
      let res1 := if likeHit c fullPath then res ++ [(fullPath, v)] else res
      let res2 := if kwHit c fullPath v then res1 ++ [(fullPath, v)] else res1
      let res3 := if reHit c fullPath then res2 ++ [(fullPath, v)] else res2
      dsProps c (dsChild c res3 fullPath v) currentPath rest

/-- `if (typeof obj[key] === "object" && obj[key] !== null)
deepSearch(obj[key], fullPath)`. -/
def dsChild (c : Criteria) (res : List (String × Val)) (fullPath : String) : Val → List (String × Val)
  | .vobj ps => dsProps c res fullPath ps
  | .varr es => dsElems c res fullPath 0 es
  | _ => res

/-- `deepSearch` over an array's entries (`for (const key in obj)`
enumerates index strings). -/
def dsElems (c : Criteria) (res : List (String × Val)) (currentPath : String) (i : Nat) :
    List Val → List (String × Val)
  | [] => res
  | v :: rest =>
      let fullPath := joinKey currentPath (escapeKey (toString i))
      let res1 := if likeHit c fullPath then res ++ [(fullPath, v)] else res
      let res2 := if kwHit c fullPath v then res1 ++ [(fullPath, v)] else res1
      let res3 := if reHit c fullPath then res2 ++ [(fullPath, v)] else res2
      dsElems c (dsChild c res3 fullPath v) currentPath (i + 1) rest

end

/-- The path-search phase of `searchJson` (lines 457–463): when `path` is
truthy, resolve it with `searchPath` and push one `{path, value}` entry —
with the caller's path string verbatim — when the value is not `null`. -/
def pathResults (json : Val) (c : Criteria) : Except String (List (String × Val)) :=
  match c.path with
  | some p =>
      if p != "" then
        (searchPath json p).map fun value =>
          match value with
          | .vnull => []
          | v => [(p, v)]
      else .ok []
  | none => .ok []

/-- `searchJson(json, {path, like, keywords, regex})` (lines 408–471).
The store only ever passes its owned object as `json`, so the primitive
for–in coercion cases never arise at the root. -/
def searchJson (json : Val) (c : Criteria) : Except String (List (String × Val)) :=
  (pathResults json c).map fun results =>
    if likeActive c || kwActive c || reActive c then
      dsChild c results "" json
    else results

/-! ## JSON.parse(JSON.stringify(·)) and the store -/

mutual

/-- Value effect of `JSON.parse(JSON.stringify(v))`: object properties
whose value is `undefined` are dropped, `undefined` array elements become
`null`, everything else is rebuilt (the rebuilt structure is fresh; the
heap model below accounts for that separately). -/
def jsonRoundTrip : Val → Val
  | .vobj ps => .vobj (jrtProps ps)
  | .varr es => .varr (jrtElems es)
  | v => v

def jrtProps : List (String × Val) → List (String × Val)
  | [] => []
  | (_, .vundefined) :: rest => jrtProps rest
  | (k, v) :: rest => (k, jsonRoundTrip v) :: jrtProps rest

def jrtElems : List Val → List Val
  | [] => []
  | .vundefined :: rest => .vnull :: jrtElems rest
  | v :: rest => jsonRoundTrip v :: jrtElems rest

end

namespace Store

/-- `read(path)` against the owned `jsonObject`. -/
def read (jsonObject path : Val) : Except String Val :=
  getNestedValueWithEscaping jsonObject path

/-- `write(path, value)`: the owned tree is mutated by
`setNestedValueWithEscaping`; the embedding returns the updated tree. -/
def write (jsonObject path value : Val) : Except String Val :=
  setNestedValueWithEscaping jsonObject path value

/-- `search(path)`. -/
def search (jsonObject path : Val) : Except String Val :=
  searchNestedValueWithEscaping jsonObject path

/-- `has(criteria)`. -/
def has (jsonObject : Val) (criteria : Criteria) : Except String (List (String × Val)) :=
  searchJson jsonObject criteria

/-- `dump()`: `JSON.parse(JSON.stringify(unflattenJson(jsonObject)))`. -/
def dump (jsonObject : Val) : Except String Val :=
  (unflattenJson jsonObject).map jsonRoundTrip

/-- `init(obj)`: `JSON.parse(JSON.stringify(flattenJsonWithEscaping(obj || {})))`. -/
def init (obj : Val) : Except String Val :=
  (flattenJsonWithEscaping (if truthy obj then obj else .vobj []) "").map
    fun entries => jsonRoundTrip (.vobj entries)

end Store

/-! ## Basic tokenizer facts -/

theorem consHead_ne_nil (c : Char) (l : List (List Char)) : consHead c l ≠ [] := by
  cases l <;> simp [consHead]

theorem splitRawL_ne_nil (p : Option Char) (l : List Char) : splitRawL p l ≠ [] := by
  induction l generalizing p with
  | nil => simp [splitRawL]
  | cons c rest ih =>
    unfold splitRawL
    by_cases h : c = '.' ∧ p ≠ some '\\'
    · simp [h]
    · simp only [if_neg h]
      exact consHead_ne_nil _ _

theorem getKeys_ne_nil (s : String) : getKeys s ≠ [] := by
  unfold getKeys
  intro h
  exact splitRawL_ne_nil none s.data (List.map_eq_nil_iff.mp h)

/-! ## C5: write-then-read on the empty tree -/

theorem setAssign_obj (keys : List String) (ps : List (String × Val)) (v : Val) :
    ∃ qs, setAssign (.vobj ps) keys v = .vobj qs := by
  match keys with
  | [] => exact ⟨ps, rfl⟩
  | [k] => exact ⟨objSetList ps k v, rfl⟩
  | k :: r :: rs => exact ⟨objSetList ps k (setAssign _ (r :: rs) v), rfl⟩

theorem getLoop_setAssign_empty (keys : List String) (v : Val) (hne : keys ≠ []) :
    getLoop (setAssign (.vobj []) keys v) keys = v := by
  induction keys with
  | nil => exact absurd rfl hne
  | cons k rest ih =>
    cases rest with
    | nil =>
      simp [setAssign, vset, objSetList, getLoop, truthy, jsTypeof, vhas, vget, objGetList]
    | cons r rs =>
      have hs := ih (by simp)
      have h1 : setAssign (Val.vobj []) (k :: r :: rs) v
          = .vobj [(k, setAssign (Val.vobj []) (r :: rs) v)] := by
        simp [setAssign, vget, objGetList, truthy, vset, objSetList]
      have h2 : getLoop (Val.vobj [(k, setAssign (Val.vobj []) (r :: rs) v)]) (k :: r :: rs)
          = getLoop (setAssign (Val.vobj []) (r :: rs) v) (r :: rs) := by
        simp [getLoop, truthy, jsTypeof, vhas, vget, objGetList]
      rw [h1, h2, hs]

/-- C5: for every path string `p` and every value `v`, reading `p` from
the tree obtained by writing `v` at `p` into an empty tree returns exactly
`v` (`Read(Write(emptyTree, p, v), p) == v`). -/
theorem c5_write_then_read (p : String) (v : Val) :
    (setNestedValueWithEscaping (.vobj []) (.vstr p) v).bind
      (fun t => getNestedValueWithEscaping t (.vstr p)) = .ok v := by
  obtain ⟨qs, hqs⟩ := setAssign_obj (getKeys p) [] v
  have hloop := getLoop_setAssign_empty (getKeys p) v (getKeys_ne_nil p)
  rw [hqs] at hloop
  unfold setNestedValueWithEscaping
  rw [if_neg (by simp [jsTypeof])]
  show (getNestedValueWithEscaping (setAssign (.vobj []) (getKeys p) v) (.vstr p)) = .ok v
  rw [hqs]
  unfold getNestedValueWithEscaping
  rw [if_neg (by simp [truthy, jsTypeof])]
  show Except.ok (getLoop (.vobj qs) (getKeys p)) = .ok v
  rw [hloop]

/-! ## C6: read and search are the same function -/

theorem searchLoop_eq_getLoop (keys : List String) (current : Val) :
    searchLoop current keys = getLoop current keys := by
  induction keys generalizing current with
  | nil => rfl
  | cons k rest ih =>
    unfold searchLoop getLoop
    by_cases h : truthy current ∧ jsTypeof current = "object" ∧ vhas current k
    · simp [h, ih]
    · simp [h]

/-- C6: for every store state and every input path value, `search(path)`
and `read(path)` return identical results — the same value or absent
indicator, and an error under exactly the same conditions (the two source
functions are textually identical). -/
theorem c6_search_eq_read (jsonObject path : Val) :
    Store.search jsonObject path = Store.read jsonObject path := by
  unfold Store.search Store.read searchNestedValueWithEscaping getNestedValueWithEscaping
  by_cases h : ¬ truthy jsonObject ∨ jsTypeof jsonObject ≠ "object"
  · rw [if_pos h, if_pos h]
  · rw [if_neg h, if_neg h]
    cases path <;> simp [searchLoop_eq_getLoop]

/-! ## C8: write with a non-string path raises before mutating -/

/-- C8: for every tree (an object root) and every non-string path
argument, `Write` raises `"Path must be a string."`.  Both argument checks
in `setNestedValueWithEscaping` precede the mutation loop, so the error is
raised before any mutation: in this embedding the error result carries no
updated tree and the caller's tree is the unchanged input. -/
theorem c8_write_nonstring_path (obj path value : Val)
    (hobj : jsTypeof obj = "object") (hnn : obj ≠ .vnull)
    (hpath : jsTypeof path ≠ "string") :
    setNestedValueWithEscaping obj path value = .error "Path must be a string." := by
  unfold setNestedValueWithEscaping
  rw [if_neg (by simp [hobj, hnn])]
  cases path with
  | vstr s => exact absurd rfl hpath
  | vnull => rfl
  | vundefined => rfl
  | vbool b => rfl
  | vnum n => rfl
  | varr es => rfl
  | vobj ps => rfl

/-- Witness for C8 at a concrete input: the empty object tree and the
numeric path `5`. -/
theorem c8_witness :
    jsTypeof (.vobj []) = "object" ∧ (Val.vobj []) ≠ .vnull ∧
      jsTypeof (.vnum 5) ≠ "string" ∧
      setNestedValueWithEscaping (.vobj []) (.vnum 5) (.vnum 1) =
        .error "Path must be a string." :=
  ⟨rfl, by decide, by decide, c8_write_nonstring_path _ _ _ rfl (by decide) (by decide)⟩

instance instDecEqExcept {ε α : Type} [DecidableEq ε] [DecidableEq α] :
    DecidableEq (Except ε α) := fun x y =>
  match x, y with
  | .ok a, .ok b =>
      if h : a = b then .isTrue (by rw [h]) else .isFalse (fun hc => h (Except.ok.inj hc))
  | .error a, .error b =>
      if h : a = b then .isTrue (by rw [h]) else .isFalse (fun hc => h (Except.error.inj hc))
  | .ok _, .error _ => .isFalse (fun hc => Except.noConfusion hc)
  | .error _, .ok _ => .isFalse (fun hc => Except.noConfusion hc)

/-! ## C2: escaped write/read and what dump really returns -/

/-- The owned tree after `write("escaped\.key.level.nested", "x")` on a
fresh store: `setNestedValueWithEscaping` builds a *nested* object whose
top-level key is the single literal-dot segment `escaped.key`. -/
def escStore : Val :=
  .vobj [("escaped.key", .vobj [("level", .vobj [("nested", .vstr "x")])])]

/-- C2 counterexample: after the escaped write, the owned tree is nested
(not single-level), and `dump()` — one `unflattenJson` over that nested
tree — re-splits the literal-dot key, so the dumped tree's top-level key
is `escaped` (chain `escaped → key`), not the single segment
`escaped.key` the claim predicts.  This is exactly the behaviour the
repository's own test (`dump()` suite) expects. -/
theorem c2_counterexample :
    setNestedValueWithEscaping (.vobj []) (.vstr "escaped\\.key.level.nested") (.vstr "x") =
        .ok escStore ∧
      Store.dump escStore =
        .ok (.vobj [("escaped", .vobj [("key", .vobj [("level", .vobj [("nested", .vstr "x")])])])]) ∧
      Store.dump escStore ≠ .ok escStore := by decide

/-- C2 amended: `write("escaped\.key.level.nested", "x")` then reading the
same path returns `"x"`, and the owned tree keeps `escaped.key` as one
literal segment distinct from the chain `escaped → key` — but the owned
tree is stored *nested* (only `init()` flattens), and `dump()` applies one
`unflattenJson` to it, which re-splits the literal dot, so the dumped
tree's top-level key is `escaped` with child `key`. -/
theorem c2_amended :
    setNestedValueWithEscaping (.vobj []) (.vstr "escaped\\.key.level.nested") (.vstr "x") =
        .ok escStore ∧
      getNestedValueWithEscaping escStore (.vstr "escaped\\.key.level.nested") =
        .ok (.vstr "x") ∧
      getKeys "escaped\\.key.level.nested" = ["escaped.key", "level", "nested"] ∧
      Store.dump escStore =
        .ok (.vobj [("escaped", .vobj [("key", .vobj [("level", .vobj [("nested", .vstr "x")])])])]) := by
  decide

/-! ## C3: arrays are traversed by Flatten, not opaque -/

/-- C3 counterexample: flattening `{a: [1, 2]}` produces the per-index
entries `a.0` and `a.1` — not one opaque entry holding the whole array as
the claim predicts (`typeof [] === 'object'`, so `recurse` descends). -/
theorem c3_counterexample :
    flattenJsonWithEscaping (.vobj [("a", .varr [.vnum 1, .vnum 2])]) "" =
        .ok [("a.0", .vnum 1), ("a.1", .vnum 2)] ∧
      flattenJsonWithEscaping (.vobj [("a", .varr [.vnum 1, .vnum 2])]) "" ≠
        .ok [("a", .varr [.vnum 1, .vnum 2])] := by decide

theorem joinKey_idx_ne (p : String) : joinKey p "0" ≠ joinKey p "1" := by
  unfold joinKey
  by_cases hp : p = ""
  · simp [hp]
  · simp only [if_neg hp]
    intro h
    have hd := congrArg String.data h
    simp [String.data_append] at hd

/-- C3 amended: `Flatten` treats an array-valued entry like an object with
the index strings as keys and recurses into it: a two-element array of
primitives under key `k` yields the entries `k.0` and `k.1` carrying the
elements, never one opaque array leaf. -/
theorem c3_amended (k : String) (v0 v1 : Val)
    (h0 : jsTypeof v0 ≠ "object" ∨ v0 = .vnull)
    (h1 : jsTypeof v1 ≠ "object" ∨ v1 = .vnull) :
    flattenJsonWithEscaping (.vobj [(k, .varr [v0, v1])]) "" =
      .ok [(joinKey (escapeKey k) (escapeKey "0"), v0),
           (joinKey (escapeKey k) (escapeKey "1"), v1)] := by
  have hesc : escapeKey "0" = "0" ∧ escapeKey "1" = "1" := by decide
  have hne : joinKey (escapeKey k) "0" ≠ joinKey (escapeKey k) "1" := joinKey_idx_ne _
  have hany : (joinKey (escapeKey k) (escapeKey "0") == joinKey (escapeKey k) (escapeKey "1")) =
      false := by
    rw [hesc.1, hesc.2]
    simp
    exact hne
  unfold flattenJsonWithEscaping
  rw [if_pos (by simp [jsTypeof])]
  show Except.ok (frecProps [] "" [(k, .varr [v0, v1])]) = _
  have hstep : frecProps [] "" [(k, .varr [v0, v1])] =
      frecElems [] (escapeKey k) 0 [v0, v1] := by
    simp [frecProps, frecVal, joinKey]
  rw [hstep]
  simp only [frecElems]
  rw [show (toString (0 : Nat) : String) = "0" by decide,
      show (toString (0 + 1 : Nat) : String) = "1" by decide]
  have hv0 : frecVal [] (joinKey (escapeKey k) (escapeKey "0")) v0 =
      [(joinKey (escapeKey k) (escapeKey "0"), v0)] := by
    cases v0 with
    | vobj ps =>
      rcases h0 with h | h
      · exact absurd rfl h
      · exact Val.noConfusion h
    | varr es =>
      rcases h0 with h | h
      · exact absurd rfl h
      · exact Val.noConfusion h
    | vnull => simp [frecVal, objSetList]
    | vundefined => simp [frecVal, objSetList]
    | vbool b => simp [frecVal, objSetList]
    | vnum n => simp [frecVal, objSetList]
    | vstr s => simp [frecVal, objSetList]
  rw [hv0]
  cases v1 with
  | vobj ps =>
    rcases h1 with h | h
    · exact absurd rfl h
    · exact Val.noConfusion h
  | varr es =>
    rcases h1 with h | h
    · exact absurd rfl h
    · exact Val.noConfusion h
  | vnull => simp [frecVal, objSetList, hany]
  | vundefined => simp [frecVal, objSetList, hany]
  | vbool b => simp [frecVal, objSetList, hany]
  | vnum n => simp [frecVal, objSetList, hany]
  | vstr s => simp [frecVal, objSetList, hany]

/-- Witness for C3's amended theorem at `k = "a"`, elements `1` and `2`. -/
theorem c3_amended_witness :
    (jsTypeof (.vnum 1) ≠ "object" ∨ (Val.vnum 1) = .vnull) ∧
      flattenJsonWithEscaping (.vobj [("a", .varr [.vnum 1, .vnum 2])]) "" =
        .ok [(joinKey (escapeKey "a") (escapeKey "0"), .vnum 1),
             (joinKey (escapeKey "a") (escapeKey "1"), .vnum 2)] :=
  ⟨by decide, c3_amended "a" (.vnum 1) (.vnum 2) (by decide) (by decide)⟩

/-! ## C4: the path criterion of `has` does not use Read's traversal -/

/-- The owned tree after `write("escaped\.key", "x")` on a fresh store. -/
def escFlatStore : Val := .vobj [("escaped.key", .vstr "x")]

/-- C4 counterexample: `read("escaped\.key")` succeeds with `"x"`, but
`has({path: "escaped\.key"})` appends no match: `searchPath` first
replaces every `\.` by `.` in the whole path and then splits on *every*
dot, so it looks for `escaped` → `key` and misses the single literal-dot
segment. -/
theorem c4_counterexample :
    setNestedValueWithEscaping (.vobj []) (.vstr "escaped\\.key") (.vstr "x") =
        .ok escFlatStore ∧
      getNestedValueWithEscaping escFlatStore (.vstr "escaped\\.key") = .ok (.vstr "x") ∧
      searchJson escFlatStore (Criteria.mk (some "escaped\\.key") none none none) =
        .ok [] := by decide

/-- C4 amended: for a truthy path criterion `p` (and no other criteria),
`has({path: p})` resolves `p` by unescaping the *whole* path and splitting
it on every dot — not by Read's tokenizer — and descends with
`current && key in current` (no mapping check, so it can throw on truthy
primitive hops); it appends exactly one `{path, value}` match carrying the
caller's path string verbatim if and only if that descent succeeds with a
non-`null` value (a stored `null` is reported as no match, although Read
succeeds on it). -/
theorem c4_amended (s : Val) (p : String) (c : Criteria)
    (hp : c.path = some p) (hne : p ≠ "")
    (hl : c.like = none) (hk : c.keywords = none) (hr : c.regex = none) :
    searchJson s c = (searchPathGo s (splitDot (escapeDots p))).map
      (fun value => match value with | .vnull => [] | v => [(p, v)]) := by
  unfold searchJson pathResults searchPath likeActive kwActive reActive
  rw [hp, hl, hk, hr]
  simp only [Option.isSome_none, Bool.or_false]
  rw [if_pos (by simp [hne])]
  cases searchPathGo s (splitDot (escapeDots p)) <;> rfl

/-- Witness for C4's amended theorem: a store `{a: 1}` and path `"a"`. -/
theorem c4_amended_witness :
    ((Criteria.mk (some "a") none none none).path = some "a" ∧ "a" ≠ "") ∧
      searchJson (.vobj [("a", .vnum 1)]) (Criteria.mk (some "a") none none none) =
        (searchPathGo (.vobj [("a", .vnum 1)]) (splitDot (escapeDots "a"))).map
          (fun value => match value with | .vnull => [] | v => [("a", v)]) :=
  ⟨⟨rfl, by decide⟩,
    c4_amended (.vobj [("a", .vnum 1)]) "a" (Criteria.mk (some "a") none none none)
      rfl (by decide) rfl rfl rfl⟩

/-! ## C10: safety of the `has` path descent -/

/-- A mapping node in the sense of the data model. -/
def isMappingB : Val → Bool
  | .vobj _ => true
  | _ => false

/-- Every proper prefix of the key list resolves to a mapping node
(the nodes the descent inspects before the final key). -/
def prefixesMappings : Val → List String → Bool
  | _, [] => true
  | current, [_] => isMappingB current
  | current, k :: rest => isMappingB current && vhas current k && prefixesMappings (vget current k) rest

theorem searchPathGo_step (current : Val) (k : String) (rest : List String)
    (h1 : truthy current = true) (h2 : jsTypeof current = "object")
    (h3 : vhas current k = true) :
    searchPathGo current (k :: rest) = searchPathGo (vget current k) rest := by
  conv_lhs => rw [searchPathGo]
  rw [if_pos h1, if_pos h2, if_pos h3]

theorem searchPathGo_safe (keys : List String) (current : Val)
    (h : prefixesMappings current keys = true) :
    ∃ v, searchPathGo current keys = .ok v := by
  induction keys generalizing current with
  | nil => exact ⟨current, rfl⟩
  | cons k rest ih =>
    match current, rest with
    | .vobj ps, [] =>
      by_cases hh : vhas (.vobj ps) k
      · exact ⟨vget (.vobj ps) k, by simp [searchPathGo, truthy, jsTypeof, hh]⟩
      · exact ⟨.vnull, by simp [searchPathGo, truthy, jsTypeof, hh]⟩
    | .vobj ps, r :: rs =>
      simp only [prefixesMappings, isMappingB, Bool.true_and, Bool.and_eq_true] at h
      obtain ⟨hv, hrec⟩ := h
      obtain ⟨v, hv2⟩ := ih (vget (.vobj ps) k) hrec
      refine ⟨v, ?_⟩
      rw [searchPathGo_step (.vobj ps) k (r :: rs) rfl rfl hv]
      exact hv2
    | .vnull, _ :: _ => simp [prefixesMappings, isMappingB] at h
    | .vnull, [] => simp [prefixesMappings, isMappingB] at h
    | .vundefined, _ :: _ => simp [prefixesMappings, isMappingB] at h
    | .vundefined, [] => simp [prefixesMappings, isMappingB] at h
    | .vbool b, _ :: _ => simp [prefixesMappings, isMappingB] at h
    | .vbool b, [] => simp [prefixesMappings, isMappingB] at h
    | .vnum n, _ :: _ => simp [prefixesMappings, isMappingB] at h
    | .vnum n, [] => simp [prefixesMappings, isMappingB] at h
    | .vstr s, _ :: _ => simp [prefixesMappings, isMappingB] at h
    | .vstr s, [] => simp [prefixesMappings, isMappingB] at h
    | .varr es, _ :: _ => simp [prefixesMappings, isMappingB] at h
    | .varr es, [] => simp [prefixesMappings, isMappingB] at h

/-- C10: when every proper prefix of the path criterion resolves to a
mapping node, `has({path: p})` completes without raising; but the descent
applies `key in current` to whatever it reaches, so on a store where a
proper prefix resolves to a truthy primitive (here `{a: "hello"}` with
path `"a.b"`), `has` throws a `TypeError` — unlike `read` on the same
path, which returns the absent indicator `undefined`. -/
theorem c10_path_search_safety :
    (∀ (s : Val) (c : Criteria) (p : String), c.path = some p →
        prefixesMappings s (splitDot (escapeDots p)) = true →
        ∃ res, searchJson s c = .ok res) ∧
      searchJson (.vobj [("a", .vstr "hello")]) (Criteria.mk (some "a.b") none none none) =
        .error "TypeError: cannot use in operator on a primitive" ∧
      getNestedValueWithEscaping (.vobj [("a", .vstr "hello")]) (.vstr "a.b") =
        .ok .vundefined := by
  refine ⟨?_, by decide, by decide⟩
  intro s c p hp hsafe
  obtain ⟨v, hv⟩ := searchPathGo_safe _ _ hsafe
  by_cases hne : p != ""
  · simp only [searchJson, pathResults, searchPath, hp, hne, if_true, hv, Except.map]
    exact ⟨_, rfl⟩
  · simp only [searchJson, pathResults, searchPath, hp]
    rw [if_neg hne]
    exact ⟨_, rfl⟩

/-- Witness for C10's universal part: store `{a: {b: 1}}`, path `"a.b"`. -/
theorem c10_witness :
    ((Criteria.mk (some "a.b") none none none).path = some "a.b" ∧
        prefixesMappings (.vobj [("a", .vobj [("b", .vnum 1)])])
          (splitDot (escapeDots "a.b")) = true) ∧
      ∃ res, searchJson (.vobj [("a", .vobj [("b", .vnum 1)])])
        (Criteria.mk (some "a.b") none none none) = .ok res :=
  ⟨⟨rfl, by decide⟩,
    c10_path_search_safety.1 (.vobj [("a", .vobj [("b", .vnum 1)])])
      (Criteria.mk (some "a.b") none none none) "a.b" rfl (by decide)⟩

/-! ## C7: the deep multi-criteria search is one pre-order traversal -/

mutual

/-- Modelled from the spec: the pre-order visit list of `deepSearch` —
every key at every depth (intermediate nodes carry their entire subtree as
value), each node before its children, siblings in parent iteration
order, paths built from escaped keys. -/
def specNodes (pfx : String) : List (String × Val) → List (String × Val)
  | [] => []
  | (k, v) :: rest =>
      (joinKey pfx (escapeKey k), v) ::
        (specChild (joinKey pfx (escapeKey k)) v ++ specNodes pfx rest)

/-- Modelled from the spec: children visited under a node — the entries of
an object-typed non-null value, nothing otherwise. -/
def specChild (fp : String) : Val → List (String × Val)
  | .vobj ps => specNodes fp ps
  | .varr es => specElems fp 0 es
  | _ => []

/-- Modelled from the spec: the visit list over array entries (index
strings as keys). -/
def specElems (fp : String) (i : Nat) : List Val → List (String × Val)
  | [] => []
  | v :: rest =>
      (joinKey fp (escapeKey (toString i)), v) ::
        (specChild (joinKey fp (escapeKey (toString i))) v ++ specElems fp (i + 1) rest)

end

/-- Modelled from the spec: the matches one visited node contributes — one
separate entry per satisfied criterion, in the order `like`, `keywords`,
`regex`, so a node satisfying two criteria appears twice. -/
def critMatches (c : Criteria) (fp : String) (v : Val) : List (String × Val) :=
  (if likeHit c fp then [(fp, v)] else []) ++
    (if kwHit c fp v then [(fp, v)] else []) ++
      (if reHit c fp then [(fp, v)] else [])

/-- Modelled from the spec: the concatenated per-node matches of a visit
list. -/
def matchesOf (c : Criteria) : List (String × Val) → List (String × Val)
  | [] => []
  | (fp, v) :: rest => critMatches c fp v ++ matchesOf c rest

theorem matchesOf_append (c : Criteria) (a b : List (String × Val)) :
    matchesOf c (a ++ b) = matchesOf c a ++ matchesOf c b := by
  induction a with
  | nil => simp [matchesOf]
  | cons p rest ih =>
    match p with
    | (fp, v) => simp [matchesOf, ih]

/-- The per-node conditional pushes of `deepSearch`. -/
def appIfs (c : Criteria) (fp : String) (v : Val) (res : List (String × Val)) :
    List (String × Val) :=
  let res1 := if likeHit c fp then res ++ [(fp, v)] else res
  let res2 := if kwHit c fp v then res1 ++ [(fp, v)] else res1
  if reHit c fp then res2 ++ [(fp, v)] else res2

theorem appIfs_eq (c : Criteria) (fp : String) (v : Val) (res : List (String × Val)) :
    appIfs c fp v res = res ++ critMatches c fp v := by
  unfold appIfs critMatches
  by_cases h1 : likeHit c fp <;> by_cases h2 : kwHit c fp v <;> by_cases h3 : reHit c fp <;>
    simp [h1, h2, h3]

theorem dsChild_spec :
    (∀ v : Val, ∀ c res fp, dsChild c res fp v = res ++ matchesOf c (specChild fp v)) ∧
      (∀ ps : List (String × Val), ∀ c res pfx,
        dsProps c res pfx ps = res ++ matchesOf c (specNodes pfx ps)) ∧
      (∀ es : List Val, ∀ c res fp i,
        dsElems c res fp i es = res ++ matchesOf c (specElems fp i es)) := by
  refine valMutInd (fun v => ∀ c res fp, dsChild c res fp v = res ++ matchesOf c (specChild fp v))
      (fun ps => ∀ c res pfx, dsProps c res pfx ps = res ++ matchesOf c (specNodes pfx ps))
      (fun es => ∀ c res fp i, dsElems c res fp i es = res ++ matchesOf c (specElems fp i es))
      ?_ ?_ ?_ ?_ ?_ ?_ ?_ ?_ ?_ ?_ ?_
  · intro c res fp; simp [dsChild, specChild, matchesOf]
  · intro c res fp; simp [dsChild, specChild, matchesOf]
  · intro b c res fp; simp [dsChild, specChild, matchesOf]
  · intro n c res fp; simp [dsChild, specChild, matchesOf]
  · intro s c res fp; simp [dsChild, specChild, matchesOf]
  · intro ps hq c res fp
    show dsProps c res fp ps = res ++ matchesOf c (specNodes fp ps)
    exact hq c res fp
  · intro es hr c res fp
    show dsElems c res fp 0 es = res ++ matchesOf c (specElems fp 0 es)
    exact hr c res fp 0
  · intro c res pfx; simp [dsProps, specNodes, matchesOf]
  · intro k v rest hv hrest c res pfx
    have hstep : dsProps c res pfx ((k, v) :: rest) =
        dsProps c (dsChild c (appIfs c (joinKey pfx (escapeKey k)) v res)
          (joinKey pfx (escapeKey k)) v) pfx rest := rfl
    rw [hstep, appIfs_eq, hv, hrest]
    simp [specNodes, matchesOf, matchesOf_append]
  · intro c res fp i; simp [dsElems, specElems, matchesOf]
  · intro v rest hv hrest c res fp i
    have hstep : dsElems c res fp i (v :: rest) =
        dsElems c (dsChild c (appIfs c (joinKey fp (escapeKey (toString i))) v res)
          (joinKey fp (escapeKey (toString i))) v) fp (i + 1) rest := rfl
    rw [hstep, appIfs_eq, hv, hrest]
    simp [specElems, matchesOf, matchesOf_append]

/-- C7: with no path criterion and at least one truthy deep criterion,
`has` performs exactly one pre-order depth-first traversal of the nested
tree (`specNodes "" ps`: every key at every depth, intermediate nodes
reported with their entire subtree as value, node before children,
siblings in parent iteration order), tests each present criterion
independently at each node, and appends one separate match per satisfied
criterion (`matchesOf`), so a node satisfying two criteria appears
twice. -/
theorem c7_deep_search (ps : List (String × Val)) (c : Criteria)
    (hp : c.path = none) (hactive : (likeActive c || kwActive c || reActive c) = true) :
    searchJson (.vobj ps) c = .ok (matchesOf c (specNodes "" ps)) := by
  simp only [searchJson, pathResults, hp, hactive, if_true, Except.map]
  rw [show dsChild c [] "" (.vobj ps) = dsProps c [] "" ps from rfl,
      dsChild_spec.2.1 ps c [] ""]
  rfl

/-- Witness for C7 at the store of the repository's `like` test. -/
theorem c7_witness :
    ((Criteria.mk none (some "like") none none).path = none ∧
        (likeActive (Criteria.mk none (some "like") none none) ||
          kwActive (Criteria.mk none (some "like") none none) ||
          reActive (Criteria.mk none (some "like") none none)) = true) ∧
      searchJson (.vobj [("example", .vobj [("like", .vobj [("path", .vstr "test")])])])
          (Criteria.mk none (some "like") none none) =
        .ok (matchesOf (Criteria.mk none (some "like") none none)
          (specNodes "" [("example", .vobj [("like", .vobj [("path", .vstr "test")])])])) :=
  ⟨⟨rfl, by decide⟩,
    c7_deep_search [("example", .vobj [("like", .vobj [("path", .vstr "test")])])]
      (Criteria.mk none (some "like") none none) rfl (by decide)⟩

/-! ## C1: round-trip of Flatten and Unflatten

Character-level facts about the escaper and the tokenizer. -/

theorem escKeyL_cons (c : Char) (rest : List Char) :
    escKeyL (c :: rest) =
      if c = '.' then '\\' :: '.' :: escKeyL rest else c :: escKeyL rest := rfl

theorem unescL_cons2 (c d : Char) (rest : List Char) :
    unescL (c :: d :: rest) =
      if c = '\\' ∧ d = '.' then '.' :: unescL rest else c :: unescL (d :: rest) := rfl

theorem splitRawL_cons (p : Option Char) (c : Char) (rest : List Char) :
    splitRawL p (c :: rest) =
      if c = '.' ∧ p ≠ some '\\' then [] :: splitRawL (some c) rest
      else consHead c (splitRawL (some c) rest) := rfl

theorem escKeyL_ne_dot_head (l t : List Char) : escKeyL l ≠ '.' :: t := by
  cases l with
  | nil => simp [escKeyL]
  | cons c rest =>
    rw [escKeyL_cons]
    by_cases h : c = '.'
    · rw [if_pos h]
      intro hc
      injection hc with h1 _
      exact absurd h1 (by decide)
    · rw [if_neg h]
      intro hc
      injection hc with h1 _
      exact h h1

theorem escKeyL_eq_nil (l : List Char) : escKeyL l = [] ↔ l = [] := by
  cases l with
  | nil => simp [escKeyL]
  | cons c rest =>
    rw [escKeyL_cons]
    by_cases h : c = '.' <;> simp [h]

/-- Decoding a segment undoes escaping: `unescL (escKeyL l) = l`. -/
theorem unescL_escKeyL (l : List Char) : unescL (escKeyL l) = l := by
  induction l with
  | nil => rfl
  | cons c rest ih =>
    rw [escKeyL_cons]
    by_cases h : c = '.'
    · rw [if_pos h, unescL_cons2, if_pos ⟨rfl, rfl⟩, ih, h]
    · rw [if_neg h]
      cases hE : escKeyL rest with
      | nil =>
        have hr : rest = [] := (escKeyL_eq_nil rest).mp hE
        subst hr
        rfl
      | cons d t =>
        have hd : ¬ (c = '\\' ∧ d = '.') := by
          rintro ⟨_, hdot⟩
          subst hdot
          exact escKeyL_ne_dot_head rest t hE
        rw [hE] at ih
        rw [unescL_cons2, if_neg hd, ih]

/-- A separator dot after an escaped segment is recognised by the
tokenizer, provided the segment does not end in a backslash. -/
theorem splitRawL_esc_sep (l : List Char) (p : Option Char) (rest : List Char)
    (hlast : l.getLast? ≠ some '\\') (hp : l = [] → p ≠ some '\\') :
    splitRawL p (escKeyL l ++ '.' :: rest) = escKeyL l :: splitRawL (some '.') rest := by
  induction l generalizing p with
  | nil =>
    simp only [escKeyL, List.nil_append]
    rw [splitRawL_cons, if_pos ⟨rfl, hp rfl⟩]
  | cons c t ih =>
    have ht : t.getLast? ≠ some '\\' := by
      cases t with
      | nil => simp
      | cons d u => rw [List.getLast?_cons_cons] at hlast; exact hlast
    rw [escKeyL_cons]
    by_cases h : c = '.'
    · rw [if_pos h]
      simp only [List.cons_append]
      rw [splitRawL_cons, if_neg (by rintro ⟨hc, _⟩; exact absurd hc (by decide))]
      rw [splitRawL_cons, if_neg (by rintro ⟨_, hpn⟩; exact hpn rfl)]
      rw [ih (some '.') ht (fun _ => by decide)]
      simp [consHead]
    · rw [if_neg h]
      have hp2 : t = [] → (some c : Option Char) ≠ some '\\' := by
        intro hnil
        subst hnil
        simp only [List.getLast?_singleton] at hlast
        simpa using hlast
      simp only [List.cons_append]
      rw [splitRawL_cons, if_neg (by rintro ⟨hc, _⟩; exact h hc)]
      rw [ih (some c) ht hp2]
      simp [consHead]

/-- An escaped segment with nothing after it is one whole split piece. -/
theorem splitRawL_esc_last (l : List Char) (p : Option Char) :
    splitRawL p (escKeyL l) = [escKeyL l] := by
  induction l generalizing p with
  | nil => rfl
  | cons c t ih =>
    rw [escKeyL_cons]
    by_cases h : c = '.'
    · rw [if_pos h]
      rw [splitRawL_cons, if_neg (by rintro ⟨hc, _⟩; exact absurd hc (by decide))]
      rw [splitRawL_cons, if_neg (by rintro ⟨_, hpn⟩; exact hpn rfl)]
      rw [ih (some '.')]
      simp [consHead]
    · rw [if_neg h]
      rw [splitRawL_cons, if_neg (by rintro ⟨hc, _⟩; exact h hc)]
      rw [ih (some c)]
      simp [consHead]

/-! String-level facts about the joined paths that `recurse` builds. -/

theorem str_data_eq_nil_iff (s : String) : s.data = [] ↔ s = "" := by
  cases s with
  | mk l =>
    constructor
    · intro h
      have h2 : l = [] := h
      subst h2
      rfl
    · intro h
      rw [h]

/-- The characters a non-empty prefix gains from the remaining segments:
a separator dot then the escaped segment, repeatedly. -/
def tailJoinL : List String → List Char
  | [] => []
  | k :: ks => '.' :: (escKeyL k.data ++ tailJoinL ks)

/-- The accumulated `newKey` after folding `joinKey`/`escapeKey` over a
segment list, as `recurse` does along one root-to-leaf branch. -/
def prefixFold (pfx : String) (ks : List String) : String :=
  ks.foldl (fun p k => joinKey p (escapeKey k)) pfx

theorem joinKey_data (pfx k : String) (h : pfx ≠ "") :
    (joinKey pfx (escapeKey k)).data = pfx.data ++ '.' :: escKeyL k.data := by
  unfold joinKey
  rw [if_neg h]
  rw [String.data_append, String.data_append]
  simp [escapeKey]

theorem prefixFold_data (ks : List String) : ∀ pfx : String, pfx ≠ "" →
    (prefixFold pfx ks).data = pfx.data ++ tailJoinL ks := by
  induction ks with
  | nil => intro pfx _; simp [prefixFold, tailJoinL]
  | cons k ks ih =>
    intro pfx hpfx
    show (prefixFold (joinKey pfx (escapeKey k)) ks).data = _
    have hne : joinKey pfx (escapeKey k) ≠ "" := by
      intro h
      have hd : (joinKey pfx (escapeKey k)).data = [] := by rw [h]
      rw [joinKey_data pfx k hpfx] at hd
      simp at hd
    rw [ih (joinKey pfx (escapeKey k)) hne, joinKey_data pfx k hpfx]
    simp [tailJoinL]

theorem prefixFold_root_data (k : String) (ks : List String) (hne : k ≠ "") :
    (prefixFold "" (k :: ks)).data = escKeyL k.data ++ tailJoinL ks := by
  show (prefixFold (joinKey "" (escapeKey k)) ks).data = _
  rw [show joinKey "" (escapeKey k) = escapeKey k from if_pos rfl]
  have he : escapeKey k ≠ "" := by
    intro h
    have hd : (escapeKey k).data = [] := by rw [h]
    have hk : k.data = [] := (escKeyL_eq_nil k.data).mp hd
    exact hne ((str_data_eq_nil_iff k).mp hk)
  rw [prefixFold_data ks (escapeKey k) he]
  rfl

theorem splitRawL_segs (segs : List String) : ∀ (k : String) (p : Option Char),
    k.data.getLast? ≠ some '\\' →
    (∀ s ∈ segs, s.data.getLast? ≠ some '\\') →
    (k.data = [] → p ≠ some '\\') →
    splitRawL p (escKeyL k.data ++ tailJoinL segs) =
      escKeyL k.data :: segs.map (fun s => escKeyL s.data) := by
  induction segs with
  | nil =>
    intro k p _ _ _
    simp only [tailJoinL, List.append_nil, List.map_nil]
    exact splitRawL_esc_last _ _
  | cons k2 ks ih =>
    intro k p hk hsegs hp
    simp only [tailJoinL]
    rw [splitRawL_esc_sep k.data p (escKeyL k2.data ++ tailJoinL ks) hk hp]
    rw [ih k2 (some '.') (hsegs k2 (by simp)) (fun s hs => hsegs s (by simp [hs]))
        (fun _ => by decide)]
    simp

/-- Decoding with the tokenizer undoes the path built by `recurse` along a
branch, provided no segment ends in a backslash and the first segment is
non-empty (an empty first segment is swallowed by the falsy
`keyPrefix ? … : …` check). -/
theorem getKeys_prefixFold (k : String) (ks : List String)
    (hne : k ≠ "")
    (hk : k.data.getLast? ≠ some '\\')
    (hks : ∀ s ∈ ks, s.data.getLast? ≠ some '\\') :
    getKeys (prefixFold "" (k :: ks)) = k :: ks := by
  unfold getKeys
  rw [prefixFold_root_data k ks hne]
  rw [splitRawL_segs ks k none hk hks (fun _ => by simp)]
  have hpt : ∀ s : String, (⟨unescL (escKeyL s.data)⟩ : String) = s := fun s => by
    rw [unescL_escKeyL]
  simp only [List.map_cons, List.map_map, hpt]
  congr 1
  calc List.map ((fun l => (⟨unescL l⟩ : String)) ∘ fun s => escKeyL s.data) ks
      = List.map id ks := List.map_congr_left (fun a _ => hpt a)
    _ = ks := List.map_id ks

/-! The flat result as a pure list: `recurse` threads `result` through a
DFS and performs one `result[newKey] = value` per leaf. -/

mutual

/-- The `(newKey, value)` pairs `recurse` records for one value. -/
def pfVal (newKey : String) : Val → List (String × Val)
  | .vobj ps => pfProps newKey ps
  | .varr es => pfElems newKey 0 es
  | v => [(newKey, v)]

def pfProps (pfx : String) : List (String × Val) → List (String × Val)
  | [] => []
  | (k, v) :: rest => pfVal (joinKey pfx (escapeKey k)) v ++ pfProps pfx rest

def pfElems (pfx : String) (i : Nat) : List Val → List (String × Val)
  | [] => []
  | v :: rest => pfVal (joinKey pfx (escapeKey (toString i))) v ++ pfElems pfx (i + 1) rest

end

/-- One `result[newKey] = value` assignment. -/
def objStep (res : List (String × Val)) (q : String × Val) : List (String × Val) :=
  objSetList res q.1 q.2

theorem frec_foldl :
    (∀ v : Val, ∀ res newKey, frecVal res newKey v = (pfVal newKey v).foldl objStep res) ∧
      (∀ ps : List (String × Val), ∀ res pfx,
        frecProps res pfx ps = (pfProps pfx ps).foldl objStep res) ∧
      (∀ es : List Val, ∀ res pfx i,
        frecElems res pfx i es = (pfElems pfx i es).foldl objStep res) := by
  refine valMutInd
      (fun v => ∀ res newKey, frecVal res newKey v = (pfVal newKey v).foldl objStep res)
      (fun ps => ∀ res pfx, frecProps res pfx ps = (pfProps pfx ps).foldl objStep res)
      (fun es => ∀ res pfx i, frecElems res pfx i es = (pfElems pfx i es).foldl objStep res)
      ?_ ?_ ?_ ?_ ?_ ?_ ?_ ?_ ?_ ?_ ?_
  · intro res newKey; rfl
  · intro res newKey; rfl
  · intro b res newKey; rfl
  · intro n res newKey; rfl
  · intro s res newKey; rfl
  · intro ps hq res newKey; exact hq res newKey
  · intro es hr res newKey; exact hr res newKey 0
  · intro res pfx; rfl
  · intro k v rest hv hrest res pfx
    show frecProps (frecVal res (joinKey pfx (escapeKey k)) v) pfx rest = _
    rw [hrest (frecVal res (joinKey pfx (escapeKey k)) v) pfx,
        hv res (joinKey pfx (escapeKey k)),
        show pfProps pfx ((k, v) :: rest) =
          pfVal (joinKey pfx (escapeKey k)) v ++ pfProps pfx rest from rfl,
        List.foldl_append]
  · intro res pfx i; rfl
  · intro v rest hv hrest res pfx i
    show frecElems (frecVal res (joinKey pfx (escapeKey (toString i))) v) pfx (i + 1) rest = _
    rw [hrest (frecVal res (joinKey pfx (escapeKey (toString i))) v) pfx (i + 1),
        hv res (joinKey pfx (escapeKey (toString i))),
        show pfElems pfx i (v :: rest) =
          pfVal (joinKey pfx (escapeKey (toString i))) v ++ pfElems pfx (i + 1) rest from rfl,
        List.foldl_append]

/-! The leaves of a tree as decoded segment lists, in the order `recurse`
visits them. -/

mutual

def leavesUnder (k : String) : Val → List (List String × Val)
  | .vobj ps => (leavesProps ps).map fun q => (k :: q.1, q.2)
  | .varr es => (leavesElems 0 es).map fun q => (k :: q.1, q.2)
  | v => [([k], v)]

def leavesProps : List (String × Val) → List (List String × Val)
  | [] => []
  | (k, v) :: rest => leavesUnder k v ++ leavesProps rest

def leavesElems (i : Nat) : List Val → List (List String × Val)
  | [] => []
  | v :: rest => leavesUnder (toString i) v ++ leavesElems (i + 1) rest

end

theorem pf_leaves :
    (∀ v : Val, ∀ k pfx, pfVal (joinKey pfx (escapeKey k)) v =
        (leavesUnder k v).map fun q => (prefixFold pfx q.1, q.2)) ∧
      (∀ ps : List (String × Val), ∀ pfx, pfProps pfx ps =
        (leavesProps ps).map fun q => (prefixFold pfx q.1, q.2)) ∧
      (∀ es : List Val, ∀ pfx i, pfElems pfx i es =
        (leavesElems i es).map fun q => (prefixFold pfx q.1, q.2)) := by
  refine valMutInd
      (fun v => ∀ k pfx, pfVal (joinKey pfx (escapeKey k)) v =
        (leavesUnder k v).map fun q => (prefixFold pfx q.1, q.2))
      (fun ps => ∀ pfx, pfProps pfx ps =
        (leavesProps ps).map fun q => (prefixFold pfx q.1, q.2))
      (fun es => ∀ pfx i, pfElems pfx i es =
        (leavesElems i es).map fun q => (prefixFold pfx q.1, q.2))
      ?_ ?_ ?_ ?_ ?_ ?_ ?_ ?_ ?_ ?_ ?_
  · intro k pfx; rfl
  · intro k pfx; rfl
  · intro b k pfx; rfl
  · intro n k pfx; rfl
  · intro s k pfx; rfl
  · intro ps hq k pfx
    show pfProps (joinKey pfx (escapeKey k)) ps = _
    rw [hq (joinKey pfx (escapeKey k)),
        show leavesUnder k (.vobj ps) = (leavesProps ps).map (fun q => (k :: q.1, q.2)) from rfl,
        List.map_map]
    exact List.map_congr_left fun a _ => rfl
  · intro es hr k pfx
    show pfElems (joinKey pfx (escapeKey k)) 0 es = _
    rw [hr (joinKey pfx (escapeKey k)) 0,
        show leavesUnder k (.varr es) = (leavesElems 0 es).map (fun q => (k :: q.1, q.2)) from rfl,
        List.map_map]
    exact List.map_congr_left fun a _ => rfl
  · intro pfx; rfl
  · intro k v rest hv hrest pfx
    show pfVal (joinKey pfx (escapeKey k)) v ++ pfProps pfx rest = _
    rw [hv k pfx, hrest pfx,
        show leavesProps ((k, v) :: rest) = leavesUnder k v ++ leavesProps rest from rfl,
        List.map_append]
  · intro pfx i; rfl
  · intro v rest hv hrest pfx i
    show pfVal (joinKey pfx (escapeKey (toString i))) v ++ pfElems pfx (i + 1) rest = _
    rw [hv (toString i) pfx, hrest pfx (i + 1),
        show leavesElems i (v :: rest) = leavesUnder (toString i) v ++ leavesElems (i + 1) rest
          from rfl,
        List.map_append]

/-! Well-formedness for the amended round-trip: mapping-only trees (the
spec's Tree has no arrays), no empty mappings, JavaScript-unique keys,
and no key ending in a backslash. -/

mutual

def goodVal : Val → Bool
  | .vobj ps => decide (ps ≠ []) && decide ((ps.map Prod.fst).Nodup) && goodProps ps
  | .varr _ => false
  | _ => true

def goodProps : List (String × Val) → Bool
  | [] => true
  | (k, v) :: rest => decide (k.data.getLast? ≠ some '\\') && goodVal v && goodProps rest

end

theorem goodVal_obj_iff (ps : List (String × Val)) : goodVal (.vobj ps) = true ↔
    ps ≠ [] ∧ (ps.map Prod.fst).Nodup ∧ goodProps ps = true := by
  simp [goodVal, and_assoc]

theorem goodProps_iff (ps : List (String × Val)) : goodProps ps = true ↔
    ∀ p ∈ ps, p.1.data.getLast? ≠ some '\\' ∧ goodVal p.2 = true := by
  induction ps with
  | nil => simp [goodProps]
  | cons p rest ih =>
    match p with
    | (k, v) => simp [goodProps, ih, and_assoc]

theorem leavesUnder_fst (k : String) (v : Val) : ∀ q ∈ leavesUnder k v, ∃ t, q.1 = k :: t := by
  cases v with
  | vobj ps =>
    intro q hq
    simp only [leavesUnder, List.mem_map] at hq
    obtain ⟨a, _, rfl⟩ := hq
    exact ⟨a.1, rfl⟩
  | varr es =>
    intro q hq
    simp only [leavesUnder, List.mem_map] at hq
    obtain ⟨a, _, rfl⟩ := hq
    exact ⟨a.1, rfl⟩
  | vnull => intro q hq; simp only [leavesUnder, List.mem_singleton] at hq; exact ⟨[], by rw [hq]⟩
  | vundefined => intro q hq; simp only [leavesUnder, List.mem_singleton] at hq; exact ⟨[], by rw [hq]⟩
  | vbool b => intro q hq; simp only [leavesUnder, List.mem_singleton] at hq; exact ⟨[], by rw [hq]⟩
  | vnum n => intro q hq; simp only [leavesUnder, List.mem_singleton] at hq; exact ⟨[], by rw [hq]⟩
  | vstr s => intro q hq; simp only [leavesUnder, List.mem_singleton] at hq; exact ⟨[], by rw [hq]⟩

theorem leavesProps_fst (ps : List (String × Val)) :
    ∀ q ∈ leavesProps ps, ∃ k t, q.1 = k :: t ∧ k ∈ ps.map Prod.fst := by
  induction ps with
  | nil => simp [leavesProps]
  | cons p rest ih =>
    match p with
    | (k, v) =>
      intro q hq
      rw [show leavesProps ((k, v) :: rest) = leavesUnder k v ++ leavesProps rest from rfl] at hq
      rcases List.mem_append.mp hq with h | h
      · obtain ⟨t, ht⟩ := leavesUnder_fst k v q h
        exact ⟨k, t, ht, by simp⟩
      · obtain ⟨k2, t, ht, hk2⟩ := ih q h
        exact ⟨k2, t, ht, by simp [hk2]⟩

theorem leaves_ne_nil :
    (∀ v : Val, goodVal v = true → ∀ k, leavesUnder k v ≠ []) ∧
      (∀ ps : List (String × Val), goodProps ps = true → ps ≠ [] → leavesProps ps ≠ []) ∧
      (∀ _ : List Val, True) := by
  refine valMutInd (fun v => goodVal v = true → ∀ k, leavesUnder k v ≠ [])
      (fun ps => goodProps ps = true → ps ≠ [] → leavesProps ps ≠ [])
      (fun _ => True) ?_ ?_ ?_ ?_ ?_ ?_ ?_ ?_ ?_ ?_ ?_
  · intro _ k; simp [leavesUnder]
  · intro _ k; simp [leavesUnder]
  · intro b _ k; simp [leavesUnder]
  · intro n _ k; simp [leavesUnder]
  · intro s _ k; simp [leavesUnder]
  · intro ps hq hgood k
    obtain ⟨hne, _, hprops⟩ := (goodVal_obj_iff ps).mp hgood
    show (leavesProps ps).map _ ≠ []
    simp only [ne_eq, List.map_eq_nil_iff]
    exact hq hprops hne
  · intro es _ hgood
    simp [goodVal] at hgood
  · intro _ h; exact absurd rfl h
  · intro k v rest hv _ hgood _
    rw [goodProps_iff] at hgood
    have hgv := (hgood (k, v) (by simp)).2
    show leavesUnder k v ++ leavesProps rest ≠ []
    intro hcontra
    exact hv hgv k (List.append_eq_nil.mp hcontra).1
  · trivial
  · intro _ _ _ _; trivial

theorem leaves_noTBS :
    (∀ v : Val, goodVal v = true → ∀ k : String, k.data.getLast? ≠ some '\\' →
        ∀ q ∈ leavesUnder k v, ∀ s ∈ q.1, s.data.getLast? ≠ some '\\') ∧
      (∀ ps : List (String × Val), goodProps ps = true →
        ∀ q ∈ leavesProps ps, ∀ s ∈ q.1, s.data.getLast? ≠ some '\\') ∧
      (∀ _ : List Val, True) := by
  have prim : ∀ v : Val, ∀ k : String, k.data.getLast? ≠ some '\\' →
      ∀ q ∈ [(([k] : List String), v)], ∀ s ∈ q.1, s.data.getLast? ≠ some '\\' := by
    intro v k hk q hq s hs
    simp only [List.mem_singleton] at hq
    subst hq
    simp only [List.mem_singleton] at hs
    subst hs
    exact hk
  refine valMutInd
      (fun v => goodVal v = true → ∀ k : String, k.data.getLast? ≠ some '\\' →
        ∀ q ∈ leavesUnder k v, ∀ s ∈ q.1, s.data.getLast? ≠ some '\\')
      (fun ps => goodProps ps = true →
        ∀ q ∈ leavesProps ps, ∀ s ∈ q.1, s.data.getLast? ≠ some '\\')
      (fun _ => True) ?_ ?_ ?_ ?_ ?_ ?_ ?_ ?_ ?_ ?_ ?_
  · intro _ k hk; exact prim _ k hk
  · intro _ k hk; exact prim _ k hk
  · intro b _ k hk; exact prim _ k hk
  · intro n _ k hk; exact prim _ k hk
  · intro s _ k hk; exact prim _ k hk
  · intro ps hq hgood k hk q hq2 s hs
    obtain ⟨_, _, hprops⟩ := (goodVal_obj_iff ps).mp hgood
    simp only [leavesUnder, List.mem_map] at hq2
    obtain ⟨a, ha, rfl⟩ := hq2
    simp only [List.mem_cons] at hs
    rcases hs with h | h
    · subst h; exact hk
    · exact hq hprops a ha s h
  · intro es _ hgood
    simp [goodVal] at hgood
  · intro _ q hq; simp [leavesProps] at hq
  · intro k v rest hv hrest hgood q hq s hs
    rw [goodProps_iff] at hgood
    have hk := (hgood (k, v) (by simp)).1
    have hgv := (hgood (k, v) (by simp)).2
    rw [show leavesProps ((k, v) :: rest) = leavesUnder k v ++ leavesProps rest from rfl] at hq
    rcases List.mem_append.mp hq with h | h
    · exact hv hgv k hk q h s hs
    · refine hrest ?_ q h s hs
      rw [goodProps_iff]
      intro p hp
      exact hgood p (by simp [hp])
  · trivial
  · intro _ _ _ _; trivial

theorem leaves_nodup :
    (∀ v : Val, goodVal v = true → ∀ k : String, ((leavesUnder k v).map Prod.fst).Nodup) ∧
      (∀ ps : List (String × Val), goodProps ps = true → (ps.map Prod.fst).Nodup →
        ((leavesProps ps).map Prod.fst).Nodup) ∧
      (∀ _ : List Val, True) := by
  refine valMutInd
      (fun v => goodVal v = true → ∀ k : String, ((leavesUnder k v).map Prod.fst).Nodup)
      (fun ps => goodProps ps = true → (ps.map Prod.fst).Nodup →
        ((leavesProps ps).map Prod.fst).Nodup)
      (fun _ => True) ?_ ?_ ?_ ?_ ?_ ?_ ?_ ?_ ?_ ?_ ?_
  · intro _ k; simp [leavesUnder]
  · intro _ k; simp [leavesUnder]
  · intro b _ k; simp [leavesUnder]
  · intro n _ k; simp [leavesUnder]
  · intro s _ k; simp [leavesUnder]
  · intro ps hq hgood k
    obtain ⟨_, hnd, hprops⟩ := (goodVal_obj_iff ps).mp hgood
    show (((leavesProps ps).map fun q => (k :: q.1, q.2)).map Prod.fst).Nodup
    rw [List.map_map]
    have : (Prod.fst ∘ fun q : List String × Val => (k :: q.1, q.2)) =
        (fun l => k :: l) ∘ Prod.fst := rfl
    rw [this, ← List.map_map]
    exact (hq hprops hnd).map fun x y h => by injection h
  · intro es _ hgood
    simp [goodVal] at hgood
  · intro _ _; simp [leavesProps]
  · intro k v rest hv hrest hgood hnd
    rw [goodProps_iff] at hgood
    have hgv := (hgood (k, v) (by simp)).2
    rw [List.map_cons, List.nodup_cons] at hnd
    show ((leavesUnder k v ++ leavesProps rest).map Prod.fst).Nodup
    rw [List.map_append]
    refine List.Nodup.append (hv hgv k) ?_ ?_
    · refine hrest ?_ hnd.2
      rw [goodProps_iff]
      intro p hp
      exact hgood p (by simp [hp])
    · intro x hx1 hx2
      simp only [List.mem_map] at hx1 hx2
      obtain ⟨q1, hq1, rfl⟩ := hx1
      obtain ⟨q2, hq2, heq⟩ := hx2
      obtain ⟨t1, ht1⟩ := leavesUnder_fst k v q1 hq1
      obtain ⟨k2, t2, ht2, hk2⟩ := leavesProps_fst rest q2 hq2
      rw [ht1] at heq
      rw [ht2] at heq
      injection heq with hhead _
      exact hnd.1 (hhead ▸ hk2)
  · trivial
  · intro _ _ _ _; trivial

theorem objSetList_fresh (res : List (String × Val)) (k : String) (v : Val)
    (h : k ∉ res.map Prod.fst) : objSetList res k v = res ++ [(k, v)] := by
  unfold objSetList
  rw [if_neg ?_]
  simp only [List.any_eq_true, beq_iff_eq, not_exists]
  intro p hp
  rcases hp with ⟨hmem, hpk⟩
  exact h (List.mem_map.mpr ⟨p, hmem, hpk⟩)

theorem foldl_objStep_fresh (pairs : List (String × Val)) : ∀ res,
    (∀ x ∈ pairs.map Prod.fst, x ∉ res.map Prod.fst) → (pairs.map Prod.fst).Nodup →
    pairs.foldl objStep res = res ++ pairs := by
  induction pairs with
  | nil => intro res _ _; simp
  | cons q rest ih =>
    intro res hdisj hnd
    match q with
    | (k, v) =>
      show List.foldl objStep (objStep res (k, v)) rest = _
      have h1 : objStep res (k, v) = res ++ [(k, v)] :=
        objSetList_fresh res k v (hdisj k (by simp))
      rw [List.map_cons, List.nodup_cons] at hnd
      rw [h1, ih (res ++ [(k, v)]) ?_ hnd.2]
      · simp
      · intro x hx
        simp only [List.map_append, List.mem_append, List.map_cons] at *
        rintro (h | h)
        · exact hdisj x (by simp [hx]) h
        · simp at h
          subst h
          exact hnd.1 hx

/-! Rebuilding the tree: `unflattenJson` replays one `unfAssign` per
flattened entry. -/

/-- One entry of the `for (const fullKey in obj)` loop, with the key
already tokenized. -/
def unfStep (res : Val) (q : List String × Val) : Val := unfAssign res q.1 q.2

theorem unfAssign_cons2 (res : Val) (k s : String) (t : List String) (w : Val) :
    unfAssign res (k :: s :: t) w =
      vset res k (unfAssign
        (if truthy (vget res k) ∧ jsTypeof (vget res k) = "object" then vget res k else .vobj [])
        (s :: t) w) := rfl

theorem unfAssign_obj (keys : List String) (ps : List (String × Val)) (v : Val) :
    ∃ qs, unfAssign (.vobj ps) keys v = .vobj qs := by
  match keys with
  | [] => exact ⟨ps, rfl⟩
  | [k] => exact ⟨objSetList ps k v, rfl⟩
  | k :: s :: t => exact ⟨objSetList ps k _, rfl⟩

theorem objGetList_fresh (res : List (String × Val)) (k : String)
    (h : k ∉ res.map Prod.fst) : objGetList res k = .vundefined := by
  unfold objGetList
  rw [show res.find? (fun p => p.1 == k) = none from ?_]
  rw [List.find?_eq_none]
  intro p hp
  simp only [beq_iff_eq]
  intro hpk
  exact h (List.mem_map.mpr ⟨p, hp, hpk⟩)

theorem objGetList_append_hit (acc : List (String × Val)) (k : String) (X : Val)
    (h : k ∉ acc.map Prod.fst) : objGetList (acc ++ [(k, X)]) k = X := by
  induction acc with
  | nil => simp [objGetList, List.find?]
  | cons a t ih =>
    have ha : a.1 ≠ k := by
      intro hc
      exact h (by simp [hc])
    have ht : k ∉ t.map Prod.fst := by
      intro hc
      exact h (by simp [hc])
    show objGetList (a :: (t ++ [(k, X)])) k = X
    unfold objGetList
    rw [List.find?_cons_of_neg _ (by simp [ha])]
    exact ih ht

theorem objSetList_append_update (acc : List (String × Val)) (k : String) (X Y : Val)
    (h : k ∉ acc.map Prod.fst) : objSetList (acc ++ [(k, X)]) k Y = acc ++ [(k, Y)] := by
  unfold objSetList
  rw [if_pos (by simp)]
  rw [List.map_append]
  congr 1
  · calc acc.map (fun p => if p.1 == k then (k, Y) else p)
        = acc.map id := by
          refine List.map_congr_left fun a ha => ?_
          have : a.1 ≠ k := by
            intro hc
            exact h (List.mem_map.mpr ⟨a, ha, hc⟩)
          simp [this]
      _ = acc := List.map_id acc
  · simp

theorem unf_first (acc : List (String × Val)) (k s : String) (t : List String) (w : Val)
    (hk : k ∉ acc.map Prod.fst) :
    unfAssign (.vobj acc) (k :: s :: t) w =
      .vobj (acc ++ [(k, unfAssign (.vobj []) (s :: t) w)]) := by
  rw [unfAssign_cons2]
  have hchild : vget (.vobj acc) k = .vundefined := objGetList_fresh acc k hk
  rw [hchild, if_neg (by rintro ⟨h1, _⟩; exact absurd h1 (by decide))]
  show Val.vobj (objSetList acc k _) = _
  rw [objSetList_fresh acc k _ hk]

theorem unf_lift (gs : List (List String × Val)) :
    ∀ (acc : List (String × Val)) (k : String) (xs : List (String × Val)),
    (∀ q ∈ gs, q.1 ≠ []) → k ∉ acc.map Prod.fst →
    List.foldl unfStep (.vobj (acc ++ [(k, .vobj xs)])) (gs.map fun q => (k :: q.1, q.2)) =
      .vobj (acc ++ [(k, List.foldl unfStep (.vobj xs) gs)]) := by
  induction gs with
  | nil => intro acc k xs _ _; rfl
  | cons g rest ih =>
    intro acc k xs hne hk
    match g with
    | (ks, w) =>
      have hks : ks ≠ [] := hne (ks, w) (by simp)
      match ks, hks with
      | s :: t, _ =>
        have hstep : unfAssign (.vobj (acc ++ [(k, .vobj xs)])) (k :: s :: t) w =
            .vobj (acc ++ [(k, unfAssign (.vobj xs) (s :: t) w)]) := by
          rw [unfAssign_cons2]
          have hchild : vget (.vobj (acc ++ [(k, .vobj xs)])) k = .vobj xs :=
            objGetList_append_hit acc k _ hk
          rw [hchild, if_pos ⟨rfl, rfl⟩]
          show Val.vobj (objSetList (acc ++ [(k, .vobj xs)]) k _) = _
          rw [objSetList_append_update acc k _ _ hk]
        show List.foldl unfStep
            (unfStep (.vobj (acc ++ [(k, .vobj xs)])) (k :: s :: t, w))
            (rest.map fun q => (k :: q.1, q.2)) = _
        rw [show unfStep (.vobj (acc ++ [(k, .vobj xs)])) (k :: s :: t, w) =
            unfAssign (.vobj (acc ++ [(k, .vobj xs)])) (k :: s :: t) w from rfl, hstep]
        obtain ⟨ys, hys⟩ := unfAssign_obj (s :: t) xs w
        rw [hys]
        rw [ih acc k ys (fun q hq => hne q (by simp [hq])) hk]
        rw [show List.foldl unfStep (.vobj xs) ((s :: t, w) :: rest) =
            List.foldl unfStep (unfStep (.vobj xs) (s :: t, w)) rest from rfl]
        rw [show unfStep (.vobj xs) (s :: t, w) = unfAssign (.vobj xs) (s :: t) w from rfl, hys]

theorem unf_rebuild :
    (∀ v : Val, goodVal v = true → ∀ (k : String) (acc : List (String × Val)),
        k ∉ acc.map Prod.fst →
        List.foldl unfStep (.vobj acc) (leavesUnder k v) = .vobj (acc ++ [(k, v)])) ∧
      (∀ ps : List (String × Val), goodProps ps = true → (ps.map Prod.fst).Nodup →
        ∀ acc : List (String × Val), (∀ x ∈ ps.map Prod.fst, x ∉ acc.map Prod.fst) →
        List.foldl unfStep (.vobj acc) (leavesProps ps) = .vobj (acc ++ ps)) ∧
      (∀ _ : List Val, True) := by
  have prim : ∀ (v : Val) (k : String) (acc : List (String × Val)), k ∉ acc.map Prod.fst →
      List.foldl unfStep (.vobj acc) [([k], v)] = .vobj (acc ++ [(k, v)]) := by
    intro v k acc hk
    show Val.vobj (objSetList acc k v) = _
    rw [objSetList_fresh acc k v hk]
  refine valMutInd
      (fun v => goodVal v = true → ∀ (k : String) (acc : List (String × Val)),
        k ∉ acc.map Prod.fst →
        List.foldl unfStep (.vobj acc) (leavesUnder k v) = .vobj (acc ++ [(k, v)]))
      (fun ps => goodProps ps = true → (ps.map Prod.fst).Nodup →
        ∀ acc : List (String × Val), (∀ x ∈ ps.map Prod.fst, x ∉ acc.map Prod.fst) →
        List.foldl unfStep (.vobj acc) (leavesProps ps) = .vobj (acc ++ ps))
      (fun _ => True) ?_ ?_ ?_ ?_ ?_ ?_ ?_ ?_ ?_ ?_ ?_
  · intro _ k acc hk; exact prim _ k acc hk
  · intro _ k acc hk; exact prim _ k acc hk
  · intro b _ k acc hk; exact prim _ k acc hk
  · intro n _ k acc hk; exact prim _ k acc hk
  · intro s _ k acc hk; exact prim _ k acc hk
  · intro ps hq hgood k acc hk
    obtain ⟨hne, hnd, hprops⟩ := (goodVal_obj_iff ps).mp hgood
    have hseg : ∀ q ∈ leavesProps ps, q.1 ≠ [] := by
      intro q hq2
      obtain ⟨k2, t2, ht2, _⟩ := leavesProps_fst ps q hq2
      rw [ht2]
      simp
    show List.foldl unfStep (.vobj acc) ((leavesProps ps).map fun q => (k :: q.1, q.2)) = _
    cases hlv : leavesProps ps with
    | nil => exact absurd hlv (leaves_ne_nil.2.1 ps hprops hne)
    | cons g gs =>
      have hgmem : g ∈ leavesProps ps := by rw [hlv]; simp
      have hgs : ∀ q ∈ gs, q.1 ≠ [] := by
        intro q hq2
        exact hseg q (by rw [hlv]; simp [hq2])
      match g, hseg g hgmem with
      | (s :: t, w), _ =>
        simp only [List.map_cons]
        show List.foldl unfStep
            (unfStep (.vobj acc) (k :: s :: t, w)) (gs.map fun q => (k :: q.1, q.2)) = _
        rw [show unfStep (.vobj acc) (k :: s :: t, w) =
            unfAssign (.vobj acc) (k :: s :: t) w from rfl]
        rw [unf_first acc k s t w hk]
        obtain ⟨ys, hys⟩ := unfAssign_obj (s :: t) [] w
        rw [hys]
        rw [unf_lift gs acc k ys hgs hk]
        have hrb : List.foldl unfStep (.vobj []) (leavesProps ps) = .vobj ps := by
          rw [hq hprops hnd [] (by simp)]
          rfl
        rw [hlv] at hrb
        rw [show List.foldl unfStep (.vobj []) ((s :: t, w) :: gs) =
            List.foldl unfStep (unfStep (.vobj []) (s :: t, w)) gs from rfl,
            show unfStep (.vobj []) (s :: t, w) = unfAssign (.vobj []) (s :: t) w from rfl,
            hys] at hrb
        rw [hrb]
  · intro es _ hgood
    simp [goodVal] at hgood
  · intro _ _ acc _
    show Val.vobj acc = .vobj (acc ++ [])
    simp
  · intro k v rest hv hrest hgood hnd acc hdisj
    rw [goodProps_iff] at hgood
    have hgv := (hgood (k, v) (by simp)).2
    rw [List.map_cons, List.nodup_cons] at hnd
    show List.foldl unfStep (.vobj acc) (leavesUnder k v ++ leavesProps rest) = _
    rw [List.foldl_append]
    rw [hv hgv k acc (hdisj k (by simp))]
    rw [hrest (by rw [goodProps_iff]; intro p hp; exact hgood p (by simp [hp])) hnd.2
        (acc ++ [(k, v)]) ?_]
    · simp
    · intro x hx
      simp only [List.map_append, List.mem_append, List.map_cons, List.mem_cons,
        List.mem_singleton]
      rintro (h | h)
      · exact hdisj x (by simp [hx]) h
      · simp at h
        subst h
        exact hnd.1 hx
  · trivial
  · intro _ _ _ _; trivial

/-! Assembling the round-trip. -/

mutual

/-- Modelled from the spec: a Tree with no empty-mapping subtrees — every
mapping non-empty and eventually terminated by primitive leaves, arrays
not modelled as first-class.  This is the hypothesis of the claim as
stated. -/
def specTreeOk : Val → Bool
  | .vobj ps => decide (ps ≠ []) && specTreeProps ps
  | .varr _ => false
  | _ => true

def specTreeProps : List (String × Val) → Bool
  | [] => true
  | (_, v) :: rest => specTreeOk v && specTreeProps rest

end

/-- C1 counterexample: the tree `{"a\": {b: 1}}` has no empty-mapping
subtrees, yet `Unflatten(Flatten(t))` is `{"a.b": 1}`: escaping the join
inserts the separator dot right after the trailing backslash of `a\`, so
the tokenizer reads it as an escaped dot. -/
theorem c1_counterexample :
    specTreeOk (.vobj [("a\\", .vobj [("b", .vnum 1)])]) = true ∧
      (flattenJsonWithEscaping (.vobj [("a\\", .vobj [("b", .vnum 1)])]) "").bind
        (fun es => unflattenJson (.vobj es)) = .ok (.vobj [("a.b", .vnum 1)]) ∧
      (Val.vobj [("a.b", .vnum 1)]) ≠ .vobj [("a\\", .vobj [("b", .vnum 1)])] := by decide

/-- C1 amended: `Unflatten(Flatten(t))` reproduces `t` exactly for every
mapping-rooted Tree `t` with no empty-mapping subtrees, provided
additionally that no key anywhere in `t` ends with a backslash and no
top-level key is the empty string (a trailing backslash escapes the
separator dot that the flattener appends, and an empty top-level key is
swallowed by the falsy `keyPrefix` check, so both break the round-trip). -/
theorem c1_roundtrip_amended (ps : List (String × Val))
    (hgood : goodVal (.vobj ps) = true)
    (hroot : ∀ x ∈ ps.map Prod.fst, x ≠ "") :
    (flattenJsonWithEscaping (.vobj ps) "").bind (fun es => unflattenJson (.vobj es)) =
      .ok (.vobj ps) := by
  obtain ⟨hne, hnd, hprops⟩ := (goodVal_obj_iff ps).mp hgood
  have hleaffst := leavesProps_fst ps
  have hnotbs := leaves_noTBS.2.1 ps hprops
  -- the flattened entries
  have hflat : flattenJsonWithEscaping (.vobj ps) "" =
      .ok ((leavesProps ps).map fun q => (prefixFold "" q.1, q.2)) := by
    unfold flattenJsonWithEscaping
    rw [if_pos (by simp [jsTypeof])]
    show Except.ok (frecProps [] "" ps) = _
    rw [frec_foldl.2.1 ps [] "", pf_leaves.2.1 ps ""]
    rw [foldl_objStep_fresh _ [] (by simp) ?_]
    · rfl
    · -- the generated dotted paths are pairwise distinct
      have hfst : ((leavesProps ps).map fun q => (prefixFold "" q.1, q.2)).map Prod.fst =
          ((leavesProps ps).map Prod.fst).map (fun ks => prefixFold "" ks) := by
        simp [List.map_map]
      rw [hfst]
      refine List.Nodup.map_on ?_ (leaves_nodup.2.1 ps hprops hnd)
      intro ks1 hks1 ks2 hks2 heq
      obtain ⟨q1, hq1, rfl⟩ := List.mem_map.mp hks1
      obtain ⟨q2, hq2, rfl⟩ := List.mem_map.mp hks2
      obtain ⟨k1, t1, ht1, hk1⟩ := hleaffst q1 hq1
      obtain ⟨k2, t2, ht2, hk2⟩ := hleaffst q2 hq2
      have hdec1 : getKeys (prefixFold "" q1.1) = q1.1 := by
        rw [ht1]
        exact getKeys_prefixFold k1 t1 (hroot k1 hk1)
          (by have := hnotbs q1 hq1 k1 (by rw [ht1]; simp); exact this)
          (fun s hs => hnotbs q1 hq1 s (by rw [ht1]; simp [hs]))
      have hdec2 : getKeys (prefixFold "" q2.1) = q2.1 := by
        rw [ht2]
        exact getKeys_prefixFold k2 t2 (hroot k2 hk2)
          (by have := hnotbs q2 hq2 k2 (by rw [ht2]; simp); exact this)
          (fun s hs => hnotbs q2 hq2 s (by rw [ht2]; simp [hs]))
      rw [← hdec1, ← hdec2, heq]
  rw [hflat]
  show unflattenJson (.vobj ((leavesProps ps).map fun q => (prefixFold "" q.1, q.2))) = _
  unfold unflattenJson
  rw [if_pos (by simp [jsTypeof])]
  show Except.ok (((leavesProps ps).map fun q => (prefixFold "" q.1, q.2)).foldl
    (fun result p => unfAssign result (getKeys p.1) p.2) (.vobj [])) = _
  rw [List.foldl_map]
  have hext : List.foldl
      (fun (acc : Val) (q : List String × Val) => unfAssign acc (getKeys (prefixFold "" q.1)) q.2)
      (.vobj []) (leavesProps ps) =
      List.foldl unfStep (.vobj []) (leavesProps ps) := by
    refine List.foldl_ext _ _ _ ?_
    intro acc q hq
    obtain ⟨k1, t1, ht1, hk1⟩ := hleaffst q hq
    have hdec : getKeys (prefixFold "" q.1) = q.1 := by
      rw [ht1]
      exact getKeys_prefixFold k1 t1 (hroot k1 hk1)
        (by have := hnotbs q hq k1 (by rw [ht1]; simp); exact this)
        (fun s hs => hnotbs q hq s (by rw [ht1]; simp [hs]))
    rw [hdec]
    rfl
  rw [hext, unf_rebuild.2.1 ps hprops hnd [] (by simp)]
  rfl

/-- Witness for C1's amended theorem at a concrete three-level tree with a
literal-dot key. -/
theorem c1_roundtrip_witness :
    (goodVal (.vobj [("test", .vobj [("tester.makeup", .vobj [("testing", .vstr "10")]),
        ("madeup", .vnum 20)]), ("fakeup", .vnum 30)]) = true ∧
      (∀ x ∈ ([("test", Val.vobj [("tester.makeup", Val.vobj [("testing", Val.vstr "10")]),
        ("madeup", Val.vnum 20)]), ("fakeup", Val.vnum 30)]).map Prod.fst, x ≠ "")) ∧
      (flattenJsonWithEscaping (.vobj [("test", .vobj [("tester.makeup",
          .vobj [("testing", .vstr "10")]), ("madeup", .vnum 20)]), ("fakeup", .vnum 30)]) "").bind
        (fun es => unflattenJson (.vobj es)) =
        .ok (.vobj [("test", .vobj [("tester.makeup", .vobj [("testing", .vstr "10")]),
          ("madeup", .vnum 20)]), ("fakeup", .vnum 30)]) :=
  ⟨⟨by decide, by decide⟩,
    c1_roundtrip_amended _ (by decide) (by decide)⟩

/-! ## C9: dump() returns a deep, detached copy

Mutation and aliasing are heap phenomena, so this claim is settled over an
explicit heap: addresses are list indices, a cell is one mutable
JavaScript object or array, and a slot holds either a primitive or a
reference.  `viewHV` reads the pure value a reference denotes (up to a
fuel bound), and a mutation is any replacement of cells. -/

inductive HVal where
  | prim (v : Val)
  | ref (a : Nat)
deriving DecidableEq

inductive HCell where
  | objc (props : List (String × HVal))
  | arrc (elems : List HVal)
deriving DecidableEq

abbrev Heap := List HCell

/-- The pure value a slot denotes, reading through references. -/
def viewHV : Nat → Heap → HVal → Val
  | _, _, .prim v => v
  | 0, _, .ref _ => .vundefined
  | fuel + 1, h, .ref a =>
      match h[a]? with
      | some (.objc props) => .vobj (props.map fun q => (q.1, viewHV fuel h q.2))
      | some (.arrc elems) => .varr (elems.map fun e => viewHV fuel h e)
      | none => .vundefined

theorem viewHV_prim (fuel : Nat) (h : Heap) (v : Val) : viewHV fuel h (.prim v) = v := by
  cases fuel <;> rfl

theorem viewHV_succ_ref (fuel : Nat) (h : Heap) (a : Nat) :
    viewHV (fuel + 1) h (.ref a) =
      match h[a]? with
      | some (.objc props) => .vobj (props.map fun q => (q.1, viewHV fuel h q.2))
      | some (.arrc elems) => .varr (elems.map fun e => viewHV fuel h e)
      | none => .vundefined := rfl

/-- Heap reachability from an address, following object and array slots. -/
inductive Reaches (h : Heap) : Nat → Nat → Prop where
  | refl (a : Nat) : Reaches h a a
  | obj {a b c : Nat} {props : List (String × HVal)} {k : String} :
      Reaches h a b → h[b]? = some (.objc props) → (k, HVal.ref c) ∈ props → Reaches h a c
  | arr {a b c : Nat} {elems : List HVal} :
      Reaches h a b → h[b]? = some (.arrc elems) → HVal.ref c ∈ elems → Reaches h a c

theorem Reaches.trans {h : Heap} {a b c : Nat} (h1 : Reaches h a b) (h2 : Reaches h b c) :
    Reaches h a c := by
  induction h2 with
  | refl => exact h1
  | obj _ hcell hmem ih => exact Reaches.obj ih hcell hmem
  | arr _ hcell hmem ih => exact Reaches.arr ih hcell hmem

/-- Reachability from a slot. -/
def HReach (h : Heap) (hv : HVal) (b : Nat) : Prop :=
  ∃ a, hv = .ref a ∧ Reaches h a b

/-- Frame rule: the view of `a` only depends on the cells reachable from
`a`. -/
theorem viewHV_frame (fuel : Nat) : ∀ (h h2 : Heap) (a : Nat),
    (∀ b, Reaches h a b → h2[b]? = h[b]?) →
    viewHV fuel h2 (.ref a) = viewHV fuel h (.ref a) := by
  induction fuel with
  | zero => intro h h2 a _; rfl
  | succ n ih =>
    intro h h2 a hagree
    rw [viewHV_succ_ref, viewHV_succ_ref, hagree a (.refl a)]
    cases hc : h[a]? with
    | none => rfl
    | some cell =>
      cases cell with
      | objc props =>
        show Val.vobj _ = Val.vobj _
        congr 1
        refine List.map_congr_left fun q hq => ?_
        cases hqv : q.2 with
        | prim v => rw [viewHV_prim, viewHV_prim]
        | ref c =>
          have hrc : Reaches h a c := Reaches.obj (.refl a) hc (by rw [← hqv]; exact hq)
          have : viewHV n h2 (.ref c) = viewHV n h (.ref c) := by
            refine ih h h2 c fun b hb => hagree b (hrc.trans hb)
          rw [this]
      | arrc elems =>
        show Val.varr _ = Val.varr _
        congr 1
        refine List.map_congr_left fun e he => ?_
        cases hev : e with
        | prim v => rw [viewHV_prim, viewHV_prim]
        | ref c =>
          have hrc : Reaches h a c := Reaches.arr (.refl a) hc (by rw [← hev]; exact he)
          have : viewHV n h2 (.ref c) = viewHV n h (.ref c) := by
            refine ih h h2 c fun b hb => hagree b (hrc.trans hb)
          rw [this]

/-! Allocation of an entirely fresh copy of a pure value, as
`JSON.parse(JSON.stringify(·))` produces. -/

mutual

def allocVal (h : Heap) : Val → Heap × HVal
  | .vobj ps =>
      let r := allocProps h ps
      (r.1 ++ [.objc r.2], .ref r.1.length)
  | .varr es =>
      let r := allocElems h es
      (r.1 ++ [.arrc r.2], .ref r.1.length)
  | v => (h, .prim v)

def allocProps (h : Heap) : List (String × Val) → Heap × List (String × HVal)
  | [] => (h, [])
  | (k, v) :: rest =>
      let r1 := allocVal h v
      let r2 := allocProps r1.1 rest
      (r2.1, (k, r1.2) :: r2.2)

def allocElems (h : Heap) : List Val → Heap × List HVal
  | [] => (h, [])
  | v :: rest =>
      let r1 := allocVal h v
      let r2 := allocElems r1.1 rest
      (r2.1, r1.2 :: r2.2)

end

def hvGe (n : Nat) : HVal → Prop
  | .prim _ => True
  | .ref a => n ≤ a

def cellGe (n : Nat) : HCell → Prop
  | .objc props => ∀ q ∈ props, hvGe n q.2
  | .arrc elems => ∀ e ∈ elems, hvGe n e

theorem hvGe_mono {m n : Nat} (h : m ≤ n) : ∀ x, hvGe n x → hvGe m x := by
  intro x
  cases x with
  | prim v => intro _; trivial
  | ref a => intro ha; exact le_trans h ha

theorem cellGe_mono {m n : Nat} (h : m ≤ n) : ∀ c, cellGe n c → cellGe m c := by
  intro c
  cases c with
  | objc props => intro hc q hq; exact hvGe_mono h _ (hc q hq)
  | arrc elems => intro hc e he; exact hvGe_mono h _ (hc e he)

/-- Allocation appends only: it never touches existing cells, every
reference it hands out is fresh (at or beyond the old heap length), and
every appended cell only refers to fresh addresses. -/
theorem alloc_fresh :
    (∀ v : Val, ∀ h : Heap, ∃ t, (allocVal h v).1 = h ++ t ∧
        hvGe h.length (allocVal h v).2 ∧ ∀ c ∈ t, cellGe h.length c) ∧
      (∀ ps : List (String × Val), ∀ h : Heap, ∃ t, (allocProps h ps).1 = h ++ t ∧
        (∀ q ∈ (allocProps h ps).2, hvGe h.length q.2) ∧ ∀ c ∈ t, cellGe h.length c) ∧
      (∀ es : List Val, ∀ h : Heap, ∃ t, (allocElems h es).1 = h ++ t ∧
        (∀ e ∈ (allocElems h es).2, hvGe h.length e) ∧ ∀ c ∈ t, cellGe h.length c) := by
  refine valMutInd
      (fun v => ∀ h : Heap, ∃ t, (allocVal h v).1 = h ++ t ∧
        hvGe h.length (allocVal h v).2 ∧ ∀ c ∈ t, cellGe h.length c)
      (fun ps => ∀ h : Heap, ∃ t, (allocProps h ps).1 = h ++ t ∧
        (∀ q ∈ (allocProps h ps).2, hvGe h.length q.2) ∧ ∀ c ∈ t, cellGe h.length c)
      (fun es => ∀ h : Heap, ∃ t, (allocElems h es).1 = h ++ t ∧
        (∀ e ∈ (allocElems h es).2, hvGe h.length e) ∧ ∀ c ∈ t, cellGe h.length c)
      ?_ ?_ ?_ ?_ ?_ ?_ ?_ ?_ ?_ ?_ ?_
  · intro h; exact ⟨[], by simp [allocVal], trivial, by simp⟩
  · intro h; exact ⟨[], by simp [allocVal], trivial, by simp⟩
  · intro b h; exact ⟨[], by simp [allocVal], trivial, by simp⟩
  · intro n h; exact ⟨[], by simp [allocVal], trivial, by simp⟩
  · intro s h; exact ⟨[], by simp [allocVal], trivial, by simp⟩
  · intro ps hq h
    obtain ⟨t, ht, hrefs, hcells⟩ := hq h
    refine ⟨t ++ [.objc (allocProps h ps).2], ?_, ?_, ?_⟩
    · show (allocProps h ps).1 ++ [HCell.objc (allocProps h ps).2] = _
      rw [ht, List.append_assoc]
    · show hvGe h.length (HVal.ref (allocProps h ps).1.length)
      show h.length ≤ (allocProps h ps).1.length
      rw [ht]
      simp
    · intro c hc
      rcases List.mem_append.mp hc with hmem | hmem
      · exact hcells c hmem
      · simp only [List.mem_singleton] at hmem
        subst hmem
        intro q hq2
        exact hrefs q hq2
  · intro es hr h
    obtain ⟨t, ht, hrefs, hcells⟩ := hr h
    refine ⟨t ++ [.arrc (allocElems h es).2], ?_, ?_, ?_⟩
    · show (allocElems h es).1 ++ [HCell.arrc (allocElems h es).2] = _
      rw [ht, List.append_assoc]
    · show h.length ≤ (allocElems h es).1.length
      rw [ht]
      simp
    · intro c hc
      rcases List.mem_append.mp hc with hmem | hmem
      · exact hcells c hmem
      · simp only [List.mem_singleton] at hmem
        subst hmem
        intro e he
        exact hrefs e he
  · intro h; exact ⟨[], by simp [allocProps], by simp [allocProps], by simp⟩
  · intro k v rest hv hrest h
    obtain ⟨t1, ht1, href1, hcells1⟩ := hv h
    obtain ⟨t2, ht2, href2, hcells2⟩ := hrest (allocVal h v).1
    have hlen : h.length ≤ (allocVal h v).1.length := by rw [ht1]; simp
    refine ⟨t1 ++ t2, ?_, ?_, ?_⟩
    · show (allocProps (allocVal h v).1 rest).1 = _
      rw [ht2, ht1, List.append_assoc]
    · intro q hq2
      show hvGe h.length q.2
      rcases List.mem_cons.mp hq2 with hh | hh
      · rw [hh]
        exact href1
      · exact hvGe_mono hlen _ (href2 q hh)
    · intro c hc
      rcases List.mem_append.mp hc with hmem | hmem
      · exact hcells1 c hmem
      · exact cellGe_mono hlen c (hcells2 c hmem)
  · intro h; exact ⟨[], by simp [allocElems], by simp [allocElems], by simp⟩
  · intro v rest hv hrest h
    obtain ⟨t1, ht1, href1, hcells1⟩ := hv h
    obtain ⟨t2, ht2, href2, hcells2⟩ := hrest (allocVal h v).1
    have hlen : h.length ≤ (allocVal h v).1.length := by rw [ht1]; simp
    refine ⟨t1 ++ t2, ?_, ?_, ?_⟩
    · show (allocElems (allocVal h v).1 rest).1 = _
      rw [ht2, ht1, List.append_assoc]
    · intro e he
      rcases List.mem_cons.mp he with hh | hh
      · rw [hh]
        exact href1
      · exact hvGe_mono hlen _ (href2 e hh)
    · intro c hc
      rcases List.mem_append.mp hc with hmem | hmem
      · exact hcells1 c hmem
      · exact cellGe_mono hlen c (hcells2 c hmem)

/-! Closed heaps and reachability bounds. -/

def hvLtB (n : Nat) : HVal → Bool
  | .prim _ => true
  | .ref a => decide (a < n)

def cellLtB (n : Nat) : HCell → Bool
  | .objc props => props.all fun q => hvLtB n q.2
  | .arrc elems => elems.all fun e => hvLtB n e

/-- Every cell of the heap refers only to existing addresses. -/
def closedB (h : Heap) : Bool := h.all fun c => cellLtB h.length c

theorem getElem?_append_lt {α : Type} (l1 l2 : List α) (i : Nat) (hi : i < l1.length) :
    (l1 ++ l2)[i]? = l1[i]? := by
  rw [List.getElem?_append, if_pos hi]

theorem getElem?_append_ge {α : Type} (l1 l2 : List α) (i : Nat) (hi : ¬ i < l1.length) :
    (l1 ++ l2)[i]? = l2[i - l1.length]? := by
  rw [List.getElem?_append, if_neg hi]

theorem mem_of_getElem?_eq {α : Type} :
    ∀ (l : List α) (i : Nat) (c : α), l[i]? = some c → c ∈ l := by
  intro l
  induction l with
  | nil => intro i c hc; simp at hc
  | cons a t ih =>
    intro i c hc
    cases i with
    | zero =>
      simp only [List.getElem?_cons_zero, Option.some_inj] at hc
      simp [hc]
    | succ j =>
      simp only [List.getElem?_cons_succ] at hc
      exact List.mem_cons_of_mem a (ih j c hc)

theorem reach_lt_of_closed (h : Heap) (hc : closedB h = true) :
    ∀ a b, Reaches h a b → a < h.length → b < h.length := by
  intro a b hr
  induction hr with
  | refl => exact id
  | obj hr2 hcell hmem ih =>
    intro ha
    have hincl : HCell.objc _ ∈ h := mem_of_getElem?_eq h _ _ hcell
    have hcellok := (List.all_eq_true.mp hc) _ hincl
    simp only [cellLtB, List.all_eq_true] at hcellok
    have := hcellok _ hmem
    simpa [hvLtB] using this
  | arr hr2 hcell hmem ih =>
    intro ha
    have hincl : HCell.arrc _ ∈ h := mem_of_getElem?_eq h _ _ hcell
    have hcellok := (List.all_eq_true.mp hc) _ hincl
    simp only [cellLtB, List.all_eq_true] at hcellok
    have := hcellok _ hmem
    simpa [hvLtB] using this

theorem reach_ge (h2 : Heap) (n : Nat)
    (hcells : ∀ b, n ≤ b → ∀ c, h2[b]? = some c → cellGe n c) :
    ∀ a b, Reaches h2 a b → n ≤ a → n ≤ b := by
  intro a b hr
  induction hr with
  | refl => exact id
  | obj hr2 hcell hmem ih =>
    intro ha
    exact hcells _ (ih ha) _ hcell _ hmem
  | arr hr2 hcell hmem ih =>
    intro ha
    exact hcells _ (ih ha) _ hcell _ hmem

/-- `read(path)` against the view of the owned object at address `r`. -/
def readH (fuel : Nat) (h : Heap) (r : Nat) (path : Val) : Except String Val :=
  getNestedValueWithEscaping (viewHV fuel h (.ref r)) path

/-- `dump()` at heap level: `unflattenJson` computes a pure value from the
owned object's view, and `JSON.parse(JSON.stringify(·))` materialises that
value (after the stringify round-trip) into entirely fresh cells.  The
intermediate object `unflattenJson` builds shares leaf references with the
store, but none of them survive `JSON.stringify`, so only the fresh copy
is modelled as heap state. -/
def dumpH (h : Heap) (r : Nat) (fuel : Nat) : Except String (Heap × HVal) :=
  (unflattenJson (viewHV fuel h (.ref r))).map fun u => allocVal h (jsonRoundTrip u)

/-- C9: over a closed heap, `dump()` returns a detached deep copy: (1) no
address reachable from the dumped root is an address of the original heap,
and (2) any later heap that preserves the original cells — in particular
any heap obtained by mutating only dump-reachable or freshly allocated
cells — yields exactly the same `read()` results, for every path and every
view depth. -/
theorem c9_dump_detached (h : Heap) (r fuel : Nat) (h2 : Heap) (d : HVal)
    (hclosed : closedB h = true) (hr : r < h.length)
    (hdump : dumpH h r fuel = .ok (h2, d)) :
    (∀ b, HReach h2 d b → h.length ≤ b) ∧
      (∀ hm : Heap, (∀ b, b < h.length → hm[b]? = h[b]?) →
        ∀ (n : Nat) (p : Val), readH n hm r p = readH n h r p) := by
  have hun : ∃ u, unflattenJson (viewHV fuel h (.ref r)) = .ok u ∧
      allocVal h (jsonRoundTrip u) = (h2, d) := by
    unfold dumpH at hdump
    cases hu : unflattenJson (viewHV fuel h (.ref r)) with
    | error e =>
      rw [hu] at hdump
      exact absurd hdump (by simp [Except.map])
    | ok u =>
      rw [hu] at hdump
      simp only [Except.map, Except.ok.injEq] at hdump
      exact ⟨u, rfl, hdump⟩
  obtain ⟨u, hu, halloc⟩ := hun
  obtain ⟨t, ht, hge, hcellst⟩ := alloc_fresh.1 (jsonRoundTrip u) h
  have hfst : h2 = h ++ t := by rw [← ht, halloc]
  have hsnd : (allocVal h (jsonRoundTrip u)).2 = d := by rw [halloc]
  constructor
  · intro b hb
    obtain ⟨a, hd, hra⟩ := hb
    have hda : h.length ≤ a := by
      rw [hsnd, hd] at hge
      exact hge
    refine reach_ge h2 h.length ?_ a b hra hda
    intro b2 hb2 c hc2
    rw [hfst, getElem?_append_ge h t b2 (by omega)] at hc2
    exact hcellst c (mem_of_getElem?_eq t _ c hc2)
  · intro hm hagree n p
    unfold readH
    have hview : viewHV n hm (.ref r) = viewHV n h (.ref r) := by
      refine viewHV_frame n h hm r ?_
      intro b hbreach
      exact hagree b (reach_lt_of_closed h hclosed r b hbreach hr)
    rw [hview]

/-- Witness for C9: a one-cell store `{key: 1}`; `dump()` allocates the
copy at the fresh address `1`, and mutating that dump cell (heap `hm`,
where the copy's value was changed to `99`) leaves `read("key")`
unchanged. -/
theorem c9_witness :
    (closedB [HCell.objc [("key", HVal.prim (.vnum 1))]] = true ∧
        (0 : Nat) < ([HCell.objc [("key", HVal.prim (.vnum 1))]] : Heap).length ∧
        dumpH [HCell.objc [("key", HVal.prim (.vnum 1))]] 0 2 =
          .ok ([HCell.objc [("key", HVal.prim (.vnum 1))],
                HCell.objc [("key", HVal.prim (.vnum 1))]], .ref 1)) ∧
      readH 3 [HCell.objc [("key", HVal.prim (.vnum 1))],
               HCell.objc [("key", HVal.prim (.vnum 99))]] 0 (.vstr "key") =
        readH 3 [HCell.objc [("key", HVal.prim (.vnum 1))]] 0 (.vstr "key") :=
  ⟨⟨by decide, by decide, by decide⟩,
    (c9_dump_detached [HCell.objc [("key", HVal.prim (.vnum 1))]] 0 2
        [HCell.objc [("key", HVal.prim (.vnum 1))], HCell.objc [("key", HVal.prim (.vnum 1))]]
        (.ref 1) (by decide) (by decide) (by decide)).2
      [HCell.objc [("key", HVal.prim (.vnum 1))], HCell.objc [("key", HVal.prim (.vnum 99))]]
      (by
        intro b hb
        cases b with
        | zero => rfl
        | succ bb =>
          simp only [List.length_singleton] at hb
          exact absurd hb (by omega))
      3 (.vstr "key")⟩
